import Mathlib

/-!
# Verification of the Santi tree-rewriting core

This file embeds, as executable Lean definitions, the parts of the Santi
HTML-sanitizer repository that its specification talks about:

* the DOM tree adapter consumed by the core (`Dom`, `Dom.parent`,
  `Dom.insertBefore`, `Dom.appendChild`, `Dom.remove`, ...), modelled after the
  standard DOM semantics the code runs against (`insertBefore` uses the DOM
  pre-insertion rule: a reference child equal to the inserted node is replaced
  by its next sibling before the node is detached);
* the wrap-chain tree surgery of `DOM_UTIL.ts` (`clearChildren`,
  `transferChildren`, `swapParentsAndChildren`, `swapNodes`, `unwrap`,
  `swapWraps`, `getWrapsAround`, `getWrapsWithin`);
* the `WrapChain` class (`outerNode`, `innerNode`, `swapWith`, validation);
* the lazy wrap resolver's replicate branch (`delazyWraps`);
* the rule interpreter of `Santi.ts` (`execGo` / `Santi.execute`, with the
  selection filter embedded as `filterSelection`).

Nodes are identified by natural numbers.  A `Dom` is the finite store of
tree nodes: the list of existing node ids together with the map from a node
to its ordered child list.  Parent pointers are derived by searching the
store, exactly as the adapter's `parentNode` denotes the unique owner of a
node.  All nodes of the model behave like DOM elements, so the type guards
`isAppendable` (always true for elements) and `isChildNode`
(`parentNode !== null`) from `DOM_TYPES` are embedded accordingly.

JS iterables produced by `while (x.firstChild)` loops are embedded as folds
over the child list captured at loop entry; for the configurations reached
here each loop iteration detaches exactly the head of that list, so the
fold follows the source loop step by step.
-/

/-- The DOM store: the finite list of node ids in the document, and the
ordered child list of every node.  This models the external tree adapter of
the specification. -/
structure Dom where
  nodes : List Nat
  kids : Nat → List Nat

/-- Replace the child list of one node, leaving every other node alone.
This is the single primitive through which all mutations go. -/
def updateKids (d : Dom) (p : Nat) (l : List Nat) : Dom :=
  { d with kids := fun m => if m = p then l else d.kids m }

@[simp] theorem updateKids_nodes (d : Dom) (p : Nat) (l : List Nat) :
    (updateKids d p l).nodes = d.nodes := rfl

@[simp] theorem updateKids_kids (d : Dom) (p : Nat) (l : List Nat) (m : Nat) :
    (updateKids d p l).kids m = if m = p then l else d.kids m := rfl

/-- `parentNode`: the unique node of the store whose child list contains `n`
(`none` for a detached node). -/
def Dom.parent (d : Dom) (n : Nat) : Option Nat :=
  d.nodes.find? (fun m => decide (n ∈ d.kids m))

/-- The element of `l` that immediately follows the first occurrence of `n`. -/
def nextAfter : List Nat → Nat → Option Nat
  | [], _ => none
  | a :: l, n => if a = n then l.head? else nextAfter l n

/-- `nextSibling`: the child that follows `n` in its parent's child list. -/
def Dom.nextSibling (d : Dom) (n : Nat) : Option Nat :=
  match d.parent n with
  | none => none
  | some p => nextAfter (d.kids p) n

/-- `parent.removeChild(n)` for a known parent `p`. -/
def removeChild (d : Dom) (p n : Nat) : Dom :=
  updateKids d p ((d.kids p).erase n)

/-- `n.remove()`: detach `n` from its parent, if it has one. -/
def Dom.remove (d : Dom) (n : Nat) : Dom :=
  match d.parent n with
  | none => d
  | some p => removeChild d p n

/-- Insert `n` immediately before the first occurrence of `r` (append when
`r` does not occur; the DOM raises in that case, but every call site below
passes a reference that is a child of the parent). -/
def insertBeforeIn (l : List Nat) (n r : Nat) : List Nat :=
  match l with
  | [] => [n]
  | a :: t => if a = r then n :: a :: t else a :: insertBeforeIn t n r

/-- `p.insertBefore(n, ref)` with the DOM pre-insertion steps: when the
reference child is `n` itself it is first replaced by `n`'s next sibling,
then `n` is detached from its current parent and spliced into `p`'s child
list before the reference (at the end when the reference is `null`). -/
def Dom.insertBefore (d : Dom) (p n : Nat) (ref : Option Nat) : Dom :=
  let ref' := if ref = some n then d.nextSibling n else ref
  let d' := d.remove n
  match ref' with
  | none => updateKids d' p (d'.kids p ++ [n])
  | some r => updateKids d' p (insertBeforeIn (d'.kids p) n r)

/-- `p.appendChild(n)`, i.e. insertion with a `null` reference. -/
def Dom.appendChild (d : Dom) (p n : Nat) : Dom :=
  d.insertBefore p n none

/-- `DOM_UTIL.clearChildren`: pop `firstChild` until none remains.  Each
iteration erases the head of the current child list. -/
def clearLoop (d : Dom) (p : Nat) : Nat → Dom
  | 0 => d
  | fuel + 1 =>
    match (d.kids p).head? with
    | none => d
    | some c => clearLoop (removeChild d p c) p fuel

/-- `DOM_UTIL.clearChildren(parent)`. -/
def Dom.clearChildren (d : Dom) (p : Nat) : Dom :=
  clearLoop d p (d.kids p).length

/-- `DOM_UTIL.transferChildren({from, to})`: repeatedly append `from`'s
first child to `to`.  Each append detaches the head of `from`'s list, so
the loop visits the child list captured at entry in order.  (When
`from = to` and children exist the source loop would not terminate; the
embedding folds over the captured list, and that case is reached below only
with an empty list, where both agree.) -/
def Dom.transferChildren (d : Dom) (src dst : Nat) : Dom :=
  (d.kids src).foldl (fun acc c => acc.appendChild dst c) d

/-- `DOM_UTIL.appendContent(parent, content)` for an array of nodes:
append each one in order. -/
def Dom.appendContent (d : Dom) (p : Nat) (content : List Nat) : Dom :=
  content.foldl (fun acc c => acc.appendChild p c) d

/-- The body of `DOM_UTIL.unwrap` once the parent is known: move every
child of `innerNode` to just before `outerNode`, then remove `outerNode`. -/
def Dom.unwrapCore (d : Dom) (outerNode innerNode p : Nat) : Dom :=
  removeChild
    ((d.kids innerNode).foldl (fun acc c => acc.insertBefore p c (some outerNode)) d)
    p outerNode

/-- `DOM_UTIL.unwrap(outerNode, innerNode)`: replaces a node with the
children of its inner node; throws on a parentless node. -/
def Dom.unwrapE (d : Dom) (outerNode innerNode : Nat) : Except String Dom :=
  match d.parent outerNode with
  | none => .error "You cannot unwrap a parentless node."
  | some p => .ok (d.unwrapCore outerNode innerNode p)

/-- `DOM_UTIL.swapParentsAndChildren(outer1, inner1, outer2, inner2)`:
swap the parents of the two outer nodes and the children of the two inner
nodes.  All nodes in the model are elements, hence appendable, so the
`cantTransferToError` branches of the source are unreachable. -/
def Dom.swapParentsAndChildren (d : Dom) (outer1 inner1 outer2 inner2 : Nat) : Dom :=
  let parent1 := d.parent outer1
  let parent2 := d.parent outer2
  let inner2OldChildren := d.kids inner2
  let outer2OldSibling := d.nextSibling outer2
  let s1 := d.clearChildren inner2
  let s2 := s1.transferChildren inner1 inner2
  let s3 :=
    match parent1 with
    | none => s2.remove outer2
    | some p1 => s2.insertBefore p1 outer2 (some outer1)
  let s4 :=
    match parent2 with
    | none => s3.remove outer1
    | some p2 => s3.insertBefore p2 outer1 outer2OldSibling
  s4.appendContent inner1 inner2OldChildren

/-- `DOM_UTIL.swapNodes(node1, node2)`: swap parents and children of two
individual nodes, guarded against the identical-node case. -/
def Dom.swapNodes (d : Dom) (n1 n2 : Nat) : Dom :=
  if n1 ≠ n2 then d.swapParentsAndChildren n1 n1 n2 n2 else d

/-- `DOM_UTIL.swapWraps(wraps1, wraps2)`: swap two wrapper chains.  An
empty array on either side degrades to unwrapping the other side, and that
unwrap is guarded by `isChildNode` (`parentNode !== null`), so a parentless
chain is silently left in place. -/
def Dom.swapWraps (d : Dom) (wraps1 wraps2 : List Nat) : Dom :=
  match wraps1, wraps2 with
  | [], [] => d
  | [], o2 :: t2 =>
    match d.parent o2 with
    | none => d
    | some p => d.unwrapCore o2 ((o2 :: t2).getLast (by simp)) p
  | o1 :: t1, [] =>
    match d.parent o1 with
    | none => d
    | some p => d.unwrapCore o1 ((o1 :: t1).getLast (by simp)) p
  | o1 :: t1, o2 :: t2 =>
    d.swapParentsAndChildren o1 ((o1 :: t1).getLast (by simp)) o2
      ((o2 :: t2).getLast (by simp))

/-- Well-formedness of a DOM store: child lists of existing nodes have no
duplicates, each node has at most one parent among the existing nodes, and
children of existing nodes exist and differ from their parent.  These are
invariants every real DOM tree satisfies. -/
def Dom.WF (d : Dom) : Prop :=
  (∀ m ∈ d.nodes, (d.kids m).Nodup) ∧
  (∀ p ∈ d.nodes, ∀ q ∈ d.nodes, ∀ n : Nat, n ∈ d.kids p → n ∈ d.kids q → p = q) ∧
  (∀ m ∈ d.nodes, ∀ c ∈ d.kids m, c ∈ d.nodes ∧ c ≠ m)

instance (d : Dom) : Decidable d.WF := by
  unfold Dom.WF
  infer_instance

/-! ## Basic facts about the store and its primitive operations -/

theorem Dom.ext' {d1 d2 : Dom} (hn : d1.nodes = d2.nodes)
    (hk : ∀ m, d1.kids m = d2.kids m) : d1 = d2 := by
  cases d1; cases d2
  simp only [Dom.mk.injEq]
  exact ⟨hn, funext hk⟩

theorem updateKids_self {d : Dom} {p : Nat} {l : List Nat}
    (h : d.kids p = l) : updateKids d p l = d := by
  refine Dom.ext' rfl fun m => ?_
  by_cases hm : m = p <;> simp [hm, h]

theorem updateKids_updateKids_same (d : Dom) (p : Nat) (l1 l2 : List Nat) :
    updateKids (updateKids d p l1) p l2 = updateKids d p l2 := by
  refine Dom.ext' rfl fun m => ?_
  by_cases hm : m = p <;> simp [hm]

theorem find?_mem_eq_some (kids : Nat → List Nat) (L : List Nat) (n q : Nat)
    (hq : q ∈ L) (hmem : n ∈ kids q)
    (huniq : ∀ m ∈ L, n ∈ kids m → m = q) :
    L.find? (fun m => decide (n ∈ kids m)) = some q := by
  induction L with
  | nil => cases hq
  | cons a t ih =>
    by_cases ha : n ∈ kids a
    · have haq : a = q := huniq a (List.mem_cons_self a t) ha
      rw [List.find?_cons_of_pos _ (by simpa using ha), haq]
    · have hqt : q ∈ t := by
        rcases List.mem_cons.1 hq with h | h
        · exact absurd (h ▸ hmem) ha
        · exact h
      rw [List.find?_cons_of_neg _ (by simpa using ha)]
      exact ih hqt fun m hm => huniq m (List.mem_cons_of_mem _ hm)

theorem find?_mem_eq_none (kids : Nat → List Nat) (L : List Nat) (n : Nat)
    (h : ∀ m ∈ L, n ∉ kids m) :
    L.find? (fun m => decide (n ∈ kids m)) = none := by
  induction L with
  | nil => rfl
  | cons a t ih =>
    rw [List.find?_cons_of_neg _ (by simpa using h a (List.mem_cons_self a t))]
    exact ih fun m hm => h m (List.mem_cons_of_mem _ hm)

/-- The parent of `n` is `q` as soon as `q` owns `n` and nobody else does. -/
theorem parent_eq_some {d : Dom} {n q : Nat} (hq : q ∈ d.nodes)
    (hmem : n ∈ d.kids q)
    (huniq : ∀ m ∈ d.nodes, n ∈ d.kids m → m = q) :
    d.parent n = some q :=
  find?_mem_eq_some d.kids d.nodes n q hq hmem huniq

theorem parent_eq_none {d : Dom} {n : Nat}
    (h : ∀ m ∈ d.nodes, n ∉ d.kids m) : d.parent n = none :=
  find?_mem_eq_none d.kids d.nodes n h

theorem parent_spec {d : Dom} {n q : Nat} (h : d.parent n = some q) :
    q ∈ d.nodes ∧ n ∈ d.kids q := by
  have h1 := List.mem_of_find?_eq_some h
  have h2 := List.find?_some h
  exact ⟨h1, by simpa using h2⟩

theorem nextAfter_mem {l : List Nat} {n r : Nat} (h : nextAfter l n = some r) :
    r ∈ l := by
  induction l with
  | nil => simp [nextAfter] at h
  | cons a t ih =>
    simp only [nextAfter] at h
    split at h
    · exact List.mem_cons_of_mem _ (List.mem_of_mem_head? h)
    · exact List.mem_cons_of_mem _ (ih h)

theorem nextAfter_ne {l : List Nat} {n r : Nat} (hl : l.Nodup)
    (h : nextAfter l n = some r) : r ≠ n := by
  induction l with
  | nil => simp [nextAfter] at h
  | cons a t ih =>
    simp only [nextAfter] at h
    rcases List.nodup_cons.1 hl with ⟨ha, ht⟩
    split at h
    · rename_i heq
      intro hrn
      exact ha (heq ▸ hrn ▸ List.mem_of_mem_head? h)
    · exact ih ht h

theorem insertBeforeIn_of_not_mem {l : List Nat} {r : Nat} (h : r ∉ l)
    (n : Nat) : insertBeforeIn l n r = l ++ [n] := by
  induction l with
  | nil => rfl
  | cons a t ih =>
    simp only [insertBeforeIn]
    rw [if_neg (by rintro rfl; exact h (List.mem_cons_self a t))]
    rw [ih (fun hr => h (List.mem_cons_of_mem _ hr))]
    simp

theorem insertBeforeIn_split {α' β : List Nat} {a : Nat} (h : a ∉ α')
    (n : Nat) : insertBeforeIn (α' ++ a :: β) n a = α' ++ n :: a :: β := by
  induction α' with
  | nil => simp [insertBeforeIn]
  | cons x t ih =>
    simp only [List.cons_append, insertBeforeIn, List.append_eq]
    rw [if_neg (by rintro rfl; exact h (List.mem_cons_self x t))]
    rw [ih (fun hr => h (List.mem_cons_of_mem _ hr))]

/-- Detaching an element and re-inserting it before its old next sibling
restores the original list. -/
theorem erase_insert_nextAfter {l : List Nat} {n : Nat} (hl : l.Nodup)
    (hn : n ∈ l) :
    (match nextAfter l n with
     | none => l.erase n ++ [n]
     | some r => insertBeforeIn (l.erase n) n r) = l := by
  induction l with
  | nil => cases hn
  | cons a t ih =>
    rcases List.nodup_cons.1 hl with ⟨ha, ht⟩
    by_cases han : a = n
    · subst han
      cases t with
      | nil => simp [nextAfter]
      | cons b t' =>
        simp only [nextAfter, if_pos rfl, List.head?, List.erase_cons_head]
        have hb : a ≠ b := by
          rintro rfl; exact ha (List.mem_cons_self a t')
        simp [insertBeforeIn, hb]
    · have hnt : n ∈ t := by
        rcases List.mem_cons.1 hn with h | h
        · exact absurd h.symm han
        · exact h
      have herase : (a :: t).erase n = a :: t.erase n := by
        rw [List.erase_cons_tail]
        simp [han]
      simp only [nextAfter, if_neg han, herase]
      rcases hr : nextAfter t n with _ | r
      · have := ih ht hnt
        rw [hr] at this
        simpa using congrArg (List.cons a) this
      · have hrt : r ∈ t := nextAfter_mem hr
        have har : a ≠ r := by rintro rfl; exact ha hrt
        have := ih ht hnt
        rw [hr] at this
        simpa [insertBeforeIn, har] using congrArg (List.cons a) this

/-! ## Net effect of the mid-level mutators -/

theorem remove_of_parent {d : Dom} {n q : Nat} (h : d.parent n = some q) :
    d.remove n = removeChild d q n := by
  simp [Dom.remove, h]

theorem remove_of_no_parent {d : Dom} {n : Nat} (h : d.parent n = none) :
    d.remove n = d := by
  simp [Dom.remove, h]

theorem appendChild_of_parent {d : Dom} {n q : Nat} (h : d.parent n = some q)
    (p : Nat) :
    d.appendChild p n =
      updateKids (removeChild d q n) p ((removeChild d q n).kids p ++ [n]) := by
  simp [Dom.appendChild, Dom.insertBefore, Dom.remove, h]

theorem appendChild_of_no_parent {d : Dom} {n : Nat} (h : d.parent n = none)
    (p : Nat) :
    d.appendChild p n = updateKids d p (d.kids p ++ [n]) := by
  simp [Dom.appendChild, Dom.insertBefore, Dom.remove, h]

theorem insertBefore_some_of_parent {d : Dom} {n q r : Nat}
    (h : d.parent n = some q) (hrn : r ≠ n) (p : Nat) :
    d.insertBefore p n (some r) =
      updateKids (removeChild d q n) p
        (insertBeforeIn ((removeChild d q n).kids p) n r) := by
  simp [Dom.insertBefore, Dom.remove, h, hrn]

theorem insertBefore_none_of_parent {d : Dom} {n q : Nat}
    (h : d.parent n = some q) (p : Nat) :
    d.insertBefore p n none =
      updateKids (removeChild d q n) p ((removeChild d q n).kids p ++ [n]) := by
  simp [Dom.insertBefore, Dom.remove, h]

/-- Clearing the children of a node empties exactly its child list. -/
theorem clearChildren_spec (d : Dom) (p : Nat) :
    d.clearChildren p = updateKids d p [] := by
  suffices h : ∀ fuel (d : Dom), (d.kids p).length = fuel →
      clearLoop d p fuel = updateKids d p [] by
    exact h _ d rfl
  intro fuel
  induction fuel with
  | zero =>
    intro d hd
    rw [List.length_eq_zero] at hd
    simp [clearLoop, updateKids_self hd]
  | succ fuel ih =>
    intro d hd
    rcases hk : d.kids p with _ | ⟨c, t⟩
    · rw [hk] at hd; simp at hd
    · rw [hk] at hd
      simp only [clearLoop, hk, List.head?]
      have hrc : removeChild d p c = updateKids d p t := by
        simp [removeChild, hk]
      rw [hrc]
      have ht : ((updateKids d p t).kids p).length = fuel := by
        simpa using Nat.succ_injective hd
      rw [ih _ ht, updateKids_updateKids_same]

/-- Net effect of the `transferChildren` loop: the source's child list is
emptied and its children land, in order, at the end of the target's child
list.  The hypotheses say the nodes being moved have the source as their
one parent. -/
theorem transfer_fold_spec {f t : Nat} (hft : f ≠ t) :
    ∀ (L : List Nat) (d : Dom), f ∈ d.nodes → d.kids f = L → L.Nodup →
    (∀ c ∈ L, ∀ m ∈ d.nodes, c ∈ d.kids m → m = f) →
    L.foldl (fun acc c => acc.appendChild t c) d =
      updateKids (updateKids d t (d.kids t ++ L)) f [] := by
  intro L
  induction L with
  | nil =>
    intro d _ hkf _ _
    simp only [List.foldl_nil, List.append_nil]
    rw [updateKids_self rfl, updateKids_self hkf]
  | cons c L' ih =>
    intro d hf hkf hnd hpar
    have hcL : c ∈ d.kids f := by rw [hkf]; exact List.mem_cons_self c L'
    have hpc : d.parent c = some f :=
      parent_eq_some hf hcL (hpar c (List.mem_cons_self c L'))
    have hrc : removeChild d f c = updateKids d f L' := by
      simp [removeChild, hkf]
    have hstep : d.appendChild t c =
        updateKids (updateKids d f L') t (d.kids t ++ [c]) := by
      rw [appendChild_of_parent hpc, hrc]
      simp [Ne.symm hft]
    rcases List.nodup_cons.1 hnd with ⟨hcL', hnd'⟩
    simp only [List.foldl_cons]
    rw [hstep]
    set d1 := updateKids (updateKids d f L') t (d.kids t ++ [c]) with hd1
    have h1f : d1.kids f = L' := by simp [hd1, hft, Ne.symm hft]
    have h1t : d1.kids t = d.kids t ++ [c] := by simp [hd1]
    have h1nodes : d1.nodes = d.nodes := by simp [hd1]
    have hpar' : ∀ c' ∈ L', ∀ m ∈ d1.nodes, c' ∈ d1.kids m → m = f := by
      intro c' hc' m hm hcm
      rw [h1nodes] at hm
      by_cases hmt : m = t
      · rw [hmt] at hcm ⊢
        rw [h1t] at hcm
        rcases List.mem_append.1 hcm with h | h
        · exact hpar c' (List.mem_cons_of_mem _ hc') t (hmt ▸ hm) h
        · exact (hcL' ((List.mem_singleton.1 h) ▸ hc')).elim
      · by_cases hmf : m = f
        · exact hmf
        · have : d1.kids m = d.kids m := by simp [hd1, hmt, hmf]
          rw [this] at hcm
          exact hpar c' (List.mem_cons_of_mem _ hc') m hm hcm
    have := ih d1 (h1nodes ▸ hf) h1f hnd' hpar'
    rw [this, h1t]
    refine Dom.ext' (by simp [hd1]) fun m => ?_
    by_cases hmf : m = f
    · simp [hmf, hft, Ne.symm hft]
    · by_cases hmt : m = t
      · simp [hmt, hmf, hd1, hft, Ne.symm hft]
      · simp [hmt, hmf, hd1]

/-- Net effect of `transferChildren` itself. -/
theorem transferChildren_spec {d : Dom} {f t : Nat} (hft : f ≠ t)
    (hf : f ∈ d.nodes) (hnd : (d.kids f).Nodup)
    (hpar : ∀ c ∈ d.kids f, ∀ m ∈ d.nodes, c ∈ d.kids m → m = f) :
    d.transferChildren f t = updateKids (updateKids d t (d.kids t ++ d.kids f)) f [] :=
  transfer_fold_spec hft (d.kids f) d hf rfl hnd hpar

/-- Net effect of `appendContent` when the appended nodes are detached:
they are appended, in order, to the target's child list. -/
theorem appendContent_spec :
    ∀ (content : List Nat) (d : Dom) (p : Nat), content.Nodup →
    (∀ c ∈ content, ∀ m ∈ d.nodes, c ∉ d.kids m) →
    d.appendContent p content = updateKids d p (d.kids p ++ content) := by
  intro content
  induction content with
  | nil =>
    intro d p _ _
    simp only [Dom.appendContent, List.foldl_nil, List.append_nil]
    rw [updateKids_self rfl]
  | cons c rest ih =>
    intro d p hnd hdet
    have hpc : d.parent c = none :=
      parent_eq_none fun m hm => hdet c (List.mem_cons_self c rest) m hm
    rcases List.nodup_cons.1 hnd with ⟨hcrest, hnd'⟩
    simp only [Dom.appendContent, List.foldl_cons]
    rw [show d.appendChild p c = updateKids d p (d.kids p ++ [c]) from
      appendChild_of_no_parent hpc p]
    set d1 := updateKids d p (d.kids p ++ [c]) with hd1
    have hdet' : ∀ c' ∈ rest, ∀ m ∈ d1.nodes, c' ∉ d1.kids m := by
      intro c' hc' m hm hcm
      by_cases hmp : m = p
      · subst hmp
        rw [show d1.kids m = d.kids m ++ [c] from by simp [hd1]] at hcm
        rcases List.mem_append.1 hcm with h | h
        · exact hdet c' (List.mem_cons_of_mem _ hc') m (by simpa [hd1] using hm) h
        · exact hcrest ((List.mem_singleton.1 h) ▸ hc')
      · rw [show d1.kids m = d.kids m from by simp [hd1, hmp]] at hcm
        exact hdet c' (List.mem_cons_of_mem _ hc') m (by simpa [hd1] using hm) hcm
    have := ih d1 p hnd' hdet'
    rw [show d1.appendContent p rest = rest.foldl (fun acc c => acc.appendChild p c) d1 from rfl] at this
    rw [this]
    refine Dom.ext' (by simp [hd1]) fun m => ?_
    by_cases hmp : m = p
    · simp [hmp, hd1]
    · simp [hmp, hd1]

/-- Net effect of the child-promotion loop of `unwrap`: the inner node's
children are spliced, in order, immediately before the outer node in the
parent's child list, and the inner node is left childless. -/
theorem promote_fold_spec {p a i : Nat} (hip : i ≠ p) :
    ∀ (C : List Nat) (d : Dom) (pre post : List Nat), i ∈ d.nodes → p ∈ d.nodes →
    d.kids i = C → C.Nodup →
    d.kids p = pre ++ a :: post → a ∉ pre →
    (∀ c ∈ C, c ≠ a ∧ ∀ m ∈ d.nodes, c ∈ d.kids m → m = i) →
    C.foldl (fun acc c => acc.insertBefore p c (some a)) d =
      updateKids (updateKids d p (pre ++ C ++ a :: post)) i [] := by
  intro C
  induction C with
  | nil =>
    intro d pre post _ _ hki _ hkp _ _
    simp only [List.foldl_nil, List.nil_append, List.append_nil]
    rw [updateKids_self hkp, updateKids_self hki]
  | cons c C' ih =>
    intro d pre post hi hpmem hki hnd hkp hapre hcond
    have hca : c ≠ a := (hcond c (List.mem_cons_self c C')).1
    have hcu := (hcond c (List.mem_cons_self c C')).2
    have hpc : d.parent c = some i :=
      parent_eq_some hi (by rw [hki]; exact List.mem_cons_self c C') hcu
    have hrc : removeChild d i c = updateKids d i C' := by
      simp [removeChild, hki]
    have hstep : d.insertBefore p c (some a) =
        updateKids (updateKids d i C') p (pre ++ c :: a :: post) := by
      rw [insertBefore_some_of_parent hpc (Ne.symm hca), hrc]
      have : (updateKids d i C').kids p = pre ++ a :: post := by
        simp [Ne.symm hip, hkp]
      rw [this, insertBeforeIn_split hapre]
    rcases List.nodup_cons.1 hnd with ⟨hcC', hnd'⟩
    simp only [List.foldl_cons]
    rw [hstep]
    set d1 := updateKids (updateKids d i C') p (pre ++ c :: a :: post) with hd1
    have h1i : d1.kids i = C' := by simp [hd1, hip]
    have h1p : d1.kids p = (pre ++ [c]) ++ a :: post := by simp [hd1]
    have h1nodes : d1.nodes = d.nodes := by simp [hd1]
    have hcond' : ∀ c' ∈ C', c' ≠ a ∧ ∀ m ∈ d1.nodes, c' ∈ d1.kids m → m = i := by
      intro c' hc'
      refine ⟨(hcond c' (List.mem_cons_of_mem _ hc')).1, ?_⟩
      intro m hm hcm
      rw [h1nodes] at hm
      by_cases hmp : m = p
      · rw [hmp] at hcm
        rw [h1p] at hcm
        have hcmem : c' ∈ d.kids p ∨ c' = c := by
          rcases List.mem_append.1 hcm with h | h
          · rcases List.mem_append.1 h with h2 | h2
            · exact Or.inl (by rw [hkp]; exact List.mem_append_left _ h2)
            · exact Or.inr (List.mem_singleton.1 h2)
          · exact Or.inl (by rw [hkp]; exact List.mem_append_right _ h)
        rcases hcmem with h | h
        · exact hmp ▸ (hcond c' (List.mem_cons_of_mem _ hc')).2 p hpmem h
        · exact (hcC' (h ▸ hc')).elim
      · by_cases hmi : m = i
        · exact hmi
        · have : d1.kids m = d.kids m := by simp [hd1, hmp, hmi]
          rw [this] at hcm
          exact (hcond c' (List.mem_cons_of_mem _ hc')).2 m hm hcm
    have hapre' : a ∉ pre ++ [c] := by
      intro h
      rcases List.mem_append.1 h with h | h
      · exact hapre h
      · exact hca (List.mem_singleton.1 h).symm
    have := ih d1 (pre ++ [c]) post (h1nodes ▸ hi) (h1nodes ▸ hpmem) h1i hnd'
      h1p hapre' hcond'
    rw [this]
    refine Dom.ext' (by simp [hd1]) fun m => ?_
    by_cases hmi : m = i
    · simp [hmi, hip]
    · by_cases hmp : m = p
      · simp [hmp, hmi, hd1, Ne.symm hip, hip]
      · simp [hmp, hmi, hd1]

theorem parent_none_spec {d : Dom} {n : Nat} (h : d.parent n = none) :
    ∀ m ∈ d.nodes, n ∉ d.kids m := by
  intro m hm
  have := List.find?_eq_none.1 h m hm
  simpa using this

theorem nextSibling_of_parent {d : Dom} {n q : Nat} (h : d.parent n = some q) :
    d.nextSibling n = nextAfter (d.kids q) n := by
  simp [Dom.nextSibling, h]

theorem nextSibling_of_no_parent {d : Dom} {n : Nat} (h : d.parent n = none) :
    d.nextSibling n = none := by
  simp [Dom.nextSibling, h]

/-- Detaching a node and re-inserting it into its own parent before its own
old next sibling (or before itself, which the DOM pre-insertion step turns
into the same thing) leaves the store unchanged. -/
theorem insertBefore_restore {d : Dom} {n q : Nat} (hq : d.parent n = some q)
    (hnd : (d.kids q).Nodup) {ref : Option Nat}
    (href : ref = d.nextSibling n ∨ ref = some n) :
    d.insertBefore q n ref = d := by
  obtain ⟨hqmem, hnmem⟩ := parent_spec hq
  have hna : d.nextSibling n = nextAfter (d.kids q) n := nextSibling_of_parent hq
  have hrestore := erase_insert_nextAfter hnd hnmem
  have hrefeq : (if ref = some n then d.nextSibling n else ref) =
      nextAfter (d.kids q) n := by
    rcases href with h | h
    · subst h
      rw [hna]
      split
      · rename_i heq
        exact absurd (nextAfter_ne hnd heq) (by simp)
      · rfl
    · subst h
      simp [hna]
  rw [Dom.insertBefore]
  simp only [hrefeq, remove_of_parent hq]
  have herase : (removeChild d q n).kids q = (d.kids q).erase n := by
    simp [removeChild]
  have hrc : removeChild d q n = updateKids d q ((d.kids q).erase n) := rfl
  split
  · rename_i heq
    rw [heq] at hrestore
    rw [herase, hrc, updateKids_updateKids_same]
    exact updateKids_self hrestore.symm
  · rename_i r heq
    rw [heq] at hrestore
    rw [herase, hrc, updateKids_updateKids_same]
    exact updateKids_self hrestore.symm

/-- `swapParentsAndChildren(n, n, n, n)` leaves a well-formed store
unchanged: the children are detached and re-appended, and the node is
re-inserted at its own position twice. -/
theorem swapParentsAndChildren_self {d : Dom} {n : Nat} (hwf : d.WF)
    (hn : n ∈ d.nodes) : d.swapParentsAndChildren n n n n = d := by
  obtain ⟨hnodup, huniq, hchild⟩ := hwf
  simp only [Dom.swapParentsAndChildren, clearChildren_spec]
  have htrans : (updateKids d n []).transferChildren n n = updateKids d n [] := by
    simp [Dom.transferChildren]
  rw [htrans]
  set s2 := updateKids d n [] with hs2def
  have hs2nodes : s2.nodes = d.nodes := by simp [hs2def]
  have hdetached : ∀ c ∈ d.kids n, ∀ m ∈ s2.nodes, c ∉ s2.kids m := by
    intro c hc m hm hmem
    rw [hs2nodes] at hm
    by_cases hmn : m = n
    · rw [hmn] at hmem; simp [hs2def] at hmem
    · rw [show s2.kids m = d.kids m from by simp [hs2def, hmn]] at hmem
      exact hmn (huniq m hm n hn c hmem hc)
  have happend : s2.appendContent n (d.kids n) = d := by
    rw [appendContent_spec (d.kids n) s2 n (hnodup n hn) hdetached]
    rw [show s2.kids n = [] from by simp [hs2def], List.nil_append, hs2def,
      updateKids_updateKids_same]
    exact updateKids_self rfl
  rcases hpo : d.parent n with _ | q
  · have hs2par : s2.parent n = none := by
      apply parent_eq_none
      intro m hm
      rw [hs2nodes] at hm
      by_cases hmn : m = n
      · rw [hmn]; simp [hs2def]
      · rw [show s2.kids m = d.kids m from by simp [hs2def, hmn]]
        exact parent_none_spec hpo m hm
    show ((s2.remove n).remove n).appendContent n (d.kids n) = d
    rw [remove_of_no_parent hs2par, remove_of_no_parent hs2par]
    exact happend
  · obtain ⟨hq, hnq⟩ := parent_spec hpo
    have hqn : q ≠ n := ((hchild q hq n hnq).2).symm
    have hs2q : s2.kids q = d.kids q := by simp [hs2def, hqn]
    have hs2par : s2.parent n = some q := by
      apply parent_eq_some (by rwa [hs2nodes]) (by rwa [hs2q])
      intro m hm hmem
      rw [hs2nodes] at hm
      by_cases hmn : m = n
      · rw [hmn] at hmem; simp [hs2def] at hmem
      · rw [show s2.kids m = d.kids m from by simp [hs2def, hmn]] at hmem
        exact huniq m hm q hq n hmem hnq
    have hs2nd : (s2.kids q).Nodup := by rw [hs2q]; exact hnodup q hq
    have hins1 : s2.insertBefore q n (some n) = s2 :=
      insertBefore_restore hs2par hs2nd (Or.inr rfl)
    have hsib : d.nextSibling n = s2.nextSibling n := by
      rw [nextSibling_of_parent hpo, nextSibling_of_parent hs2par, hs2q]
    have hins2 : s2.insertBefore q n (d.nextSibling n) = s2 :=
      insertBefore_restore hs2par hs2nd (Or.inl hsib)
    show ((s2.insertBefore q n (some n)).insertBefore q n
      (d.nextSibling n)).appendContent n (d.kids n) = d
    rw [hins1, hins2]
    exact happend

/-- A small concrete store used to witness theorems: node 0 is the root
with children 1 and 2; node 1 has the single child 3. -/
def egDom : Dom :=
  { nodes := [0, 1, 2, 3]
    kids := fun m => if m = 0 then [1, 2] else if m = 1 then [3] else [] }

/-- C8: for every node `n` of a well-formed store, a structural swap in
which both sides denote the identical single node `n` is a no-op: both
`swapNodes(n, n)` (which is guarded) and `swapWraps([n], [n])` (which
re-inserts `n` at its own position and re-appends its own children) leave
the tree completely unchanged, so `n` keeps its parent and its children. -/
theorem claim_C8_identical_swap_noop {d : Dom} {n : Nat} (hwf : d.WF)
    (hn : n ∈ d.nodes) :
    d.swapNodes n n = d ∧ d.swapWraps [n] [n] = d := by
  refine ⟨by simp [Dom.swapNodes], ?_⟩
  show d.swapParentsAndChildren n n n n = d
  exact swapParentsAndChildren_self hwf hn

/-- Witness for C8 on the concrete store `egDom`, at the node 1 (which has
parent 0 and child 3). -/
theorem claim_C8_witness :
    egDom.WF ∧ (1 ∈ egDom.nodes) ∧
      (egDom.swapNodes 1 1 = egDom ∧ egDom.swapWraps [1] [1] = egDom) :=
  ⟨by decide, by decide, claim_C8_identical_swap_noop (by decide) (by decide)⟩

/-! ## The `WrapChain` class -/

/-- The `WrapChain` class: an ordered array of nodes, outermost first. -/
structure WrapChain where
  nodes : List Nat
deriving DecidableEq

/-- `get length() { return this.nodes.length; }` -/
def WrapChain.length (c : WrapChain) : Nat := c.nodes.length

/-- `get outerNode() { return this.nodes[0] || null; }` -/
def WrapChain.outerNode (c : WrapChain) : Option Nat := c.nodes[0]?

/-- `get innerNode() { return this.nodes[this.length] || null; }`
The index used by the source is `this.length`, which is one past the last
element of the array, so the access is always out of range and the getter
always yields `null`. -/
def WrapChain.innerNode (c : WrapChain) : Option Nat := c.nodes[c.length]?

/-- The index-by-index validation loop of the `WrapChain` constructor:
every node but the last must have exactly one child, identical to the next
node of the array; a violation reports the first failing index. -/
def chainCheckFrom (d : Dom) : List Nat → Nat → Except String Unit
  | [], _ => .ok ()
  | [_], _ => .ok ()
  | a :: b :: t, i =>
    let numChildren := (d.kids a).length
    if numChildren ≠ 1 then
      .error s!"Node wrap chains must be composed of nodes containing only the subsequent node. However, the node at index {i} had {numChildren} children."
    else if (d.kids a).head? ≠ some b then
      .error s!"Node wrap chains must be composed of nodes containing only subsequent nodes. However, the node at index {i} had a child not identical to the next node in the given array."
    else
      chainCheckFrom d (b :: t) (i + 1)

/-- `new WrapChain(wraps)`: validate then store the array. -/
def WrapChain.fromNodes (d : Dom) (wraps : List Nat) : Except String WrapChain :=
  (chainCheckFrom d wraps 0).map fun _ => ⟨wraps⟩

/-- `WrapChain.swapWith(node)` for a `WrapChain` argument: the outer/inner
nodes of both sides are read through the getters, an empty side degrades to
unwrapping the other, and two empty sides do nothing. -/
def WrapChain.swapWith (d : Dom) (c other : WrapChain) : Except String Dom :=
  let myOuter := c.outerNode
  let myInner := c.innerNode
  let nodeOuter := other.outerNode
  let nodeInner := other.innerNode
  match myOuter, myInner with
  | some mo, some mi =>
    match nodeOuter, nodeInner with
    | some no, some ni => .ok (d.swapParentsAndChildren mo mi no ni)
    | _, _ => d.unwrapE mo mi
  | _, _ =>
    match nodeOuter, nodeInner with
    | some no, some ni => d.unwrapE no ni
    | _, _ => .ok d

/-- C10: when both sides of a `WrapChain.swapWith` are empty chains (their
outer and inner getters both yield `null`), the method returns without
raising and without mutating the store: the result is exactly the input
store, so every node keeps its parent and children. -/
theorem claim_C10_swapWith_both_empty (d : Dom) :
    WrapChain.swapWith d ⟨[]⟩ ⟨[]⟩ = .ok d := rfl

/-- C3: the `outerNode` getter of a chain built from a non-empty array
`[n0, ..., nk]` does return `n0`, but the `innerNode` getter indexes the
array at `this.length` — one past the last element — so it returns `null`
even for the valid non-empty chain `[1, 3]` of `egDom`, where the last
node is 3.  This contradicts the documented accessor semantics
(`inner = nk`). -/
theorem claim_C3_innerNode_out_of_range :
    WrapChain.fromNodes egDom [1, 3] = .ok ⟨[1, 3]⟩ ∧
    (WrapChain.mk [1, 3]).outerNode = some 1 ∧
    (WrapChain.mk [1, 3]).innerNode = none ∧
    ¬ (WrapChain.mk [1, 3]).innerNode = some 3 := by
  refine ⟨?_, rfl, rfl, by decide⟩
  rfl

/-! ## Wrap chains as viewed by `DOM_UTIL.swapWraps` -/

/-- The structural invariant of a wrap chain (the property the `WrapChain`
constructor validates): every node of the array except the last has
exactly one child, and that child is the next node of the array. -/
def ChainValid (d : Dom) : List Nat → Prop
  | a :: b :: t => d.kids a = [b] ∧ ChainValid d (b :: t)
  | _ => True

/-- Every member of a valid chain is either its head or the sole child of
some member of the chain. -/
theorem chainValid_mem {d : Dom} :
    ∀ {X : List Nat}, ChainValid d X → ∀ u ∈ X,
      u ∈ X.take 1 ∨ ∃ v ∈ X, d.kids v = [u] := by
  intro X
  induction X with
  | nil => intro _ u hu; cases hu
  | cons a xs ih =>
    intro hv u hu
    cases xs with
    | nil =>
      left
      simpa using hu
    | cons b t =>
      obtain ⟨hab, hrest⟩ := hv
      rcases List.mem_cons.1 hu with h | h
      · left; simp [h]
      · right
        rcases ih hrest u h with h2 | h2
        · have hub : u = b := by simpa using h2
          exact ⟨a, List.mem_cons_self a _, by rw [hab, hub]⟩
        · obtain ⟨v, hv1, hv2⟩ := h2
          exact ⟨v, List.mem_cons_of_mem _ hv1, hv2⟩

theorem erase_of_not_mem_left {l1 l2 : List Nat} {a : Nat} (h : a ∉ l1) :
    (l1 ++ l2).erase a = l1 ++ l2.erase a := by
  induction l1 with
  | nil => rfl
  | cons x t ih =>
    have hxa : x ≠ a := by rintro rfl; exact h (List.mem_cons_self x t)
    rw [List.cons_append, List.erase_cons_tail (by simpa using hxa),
      ih (fun hm => h (List.mem_cons_of_mem _ hm)), List.cons_append]

/-- Net effect of `unwrap` (given the split of the parent's child list at
the outer node): the inner node's children replace the outer node in the
parent's list, the inner node is childless, nothing else changes. -/
theorem unwrapCore_spec {d : Dom} {a i p : Nat} {pre post : List Nat}
    (hip : i ≠ p) (hi : i ∈ d.nodes) (hpmem : p ∈ d.nodes)
    (hkp : d.kids p = pre ++ a :: post) (hapre : a ∉ pre)
    (hnd : (d.kids i).Nodup)
    (hcond : ∀ c ∈ d.kids i, c ≠ a ∧ ∀ m ∈ d.nodes, c ∈ d.kids m → m = i) :
    d.unwrapCore a i p =
      updateKids (updateKids d i []) p (pre ++ d.kids i ++ post) := by
  rw [Dom.unwrapCore,
    promote_fold_spec hip (d.kids i) d pre post hi hpmem rfl hnd hkp hapre hcond]
  set S := updateKids (updateKids d p (pre ++ d.kids i ++ a :: post)) i []
    with hS
  have hSkp : S.kids p = (pre ++ d.kids i) ++ a :: post := by
    simp [hS, Ne.symm hip, List.append_assoc]
  have hanotin : a ∉ pre ++ d.kids i := by
    intro h
    rcases List.mem_append.1 h with h | h
    · exact hapre h
    · exact (hcond a h).1 rfl
  have herased : (S.kids p).erase a = pre ++ d.kids i ++ post := by
    rw [hSkp, erase_of_not_mem_left hanotin, List.erase_cons_head,
      List.append_assoc]
  rw [removeChild, herased]
  refine Dom.ext' (by simp [hS]) fun m => ?_
  by_cases hmp : m = p
  · simp [hmp, hS, Ne.symm hip]
  · by_cases hmi : m = i
    · simp [hmi, hmp, hip, hS]
    · simp [hmp, hmi, hS]

/-- Every non-head member of a valid chain is the sole child of a member
that is not the last element. -/
theorem chain_pred {d : Dom} :
    ∀ {a : Nat} {xs : List Nat}, ChainValid d (a :: xs) → ∀ u ∈ xs,
      ∃ v ∈ (a :: xs).dropLast, d.kids v = [u] := by
  intro a xs
  induction xs generalizing a with
  | nil => intro _ u hu; cases hu
  | cons b t ih =>
    intro hv u hu
    obtain ⟨hab, hrest⟩ := hv
    rcases List.mem_cons.1 hu with h | h
    · refine ⟨a, ?_, by rw [hab, h]⟩
      rw [List.dropLast_cons_of_ne_nil (List.cons_ne_nil b t)]
      exact List.mem_cons_self a _
    · obtain ⟨v, hv1, hv2⟩ := ih hrest u h
      refine ⟨v, ?_, hv2⟩
      rw [List.dropLast_cons_of_ne_nil (List.cons_ne_nil b t)]
      exact List.mem_cons_of_mem _ hv1

theorem getLast_not_mem_dropLast {l : List Nat} (h : l ≠ []) (hnd : l.Nodup) :
    l.getLast h ∉ l.dropLast := by
  intro hmem
  have hsplit := List.dropLast_append_getLast h
  rw [← hsplit] at hnd
  exact (List.disjoint_of_nodup_append hnd) hmem (List.mem_singleton.2 rfl)

/-- C4 (amended): for a structurally valid non-empty wrap chain whose outer
node has a parent, `swapWraps(chain, [])` performs exactly
`unwrap(chain.outer, chain.inner)`: the two agree, the children of the
chain's inner node are promoted to the chain's old position in order, and
the chain's nodes all disappear from the child list of every node outside
the chain.  (As stated the claim also covered parentless chains; see the
counterexample.) -/
theorem claim_C4_swap_empty_is_unwrap {d : Dom} {a ia : Nat} {xs : List Nat}
    (hwf : d.WF)
    (hv : ChainValid d (a :: xs)) (hnd : (a :: xs).Nodup)
    (hmem : ∀ u ∈ a :: xs, u ∈ d.nodes)
    (hlast : (a :: xs).getLast (List.cons_ne_nil a xs) = ia)
    {p : Nat} (hp : d.parent a = some p) (hpX : p ∉ a :: xs)
    {pre post : List Nat} (hkp : d.kids p = pre ++ a :: post) (hapre : a ∉ pre) :
    d.swapWraps (a :: xs) [] = d.unwrapCore a ia p ∧
    d.unwrapE a ia = .ok (d.swapWraps (a :: xs) []) ∧
    (d.swapWraps (a :: xs) []).kids p = pre ++ d.kids ia ++ post ∧
    (d.swapWraps (a :: xs) []).kids ia = [] ∧
    (∀ u ∈ a :: xs, ∀ m ∈ d.nodes, m ∉ a :: xs →
      u ∉ (d.swapWraps (a :: xs) []).kids m) ∧
    (∀ m, m ≠ p → m ≠ ia → (d.swapWraps (a :: xs) []).kids m = d.kids m) := by
  obtain ⟨hnodup, huniq, hchild⟩ := hwf
  obtain ⟨hpnodes, hakp⟩ := parent_spec hp
  have hiaX : ia ∈ a :: xs := hlast ▸ List.getLast_mem (List.cons_ne_nil a xs)
  have hianodes : ia ∈ d.nodes := hmem ia hiaX
  have hip : ia ≠ p := by rintro rfl; exact hpX hiaX
  have hcond : ∀ c ∈ d.kids ia, c ≠ a ∧ ∀ m ∈ d.nodes, c ∈ d.kids m → m = ia := by
    intro c hc
    constructor
    · rintro rfl
      exact hip (huniq ia hianodes p hpnodes c hc hakp)
    · intro m hm hcm
      exact huniq m hm ia hianodes c hcm hc
  have hswap : d.swapWraps (a :: xs) [] = d.unwrapCore a ia p := by
    show (match d.parent a with
      | none => d
      | some p => d.unwrapCore a ((a :: xs).getLast (by simp)) p) =
        d.unwrapCore a ia p
    rw [hp]
    have : (a :: xs).getLast (by simp) = ia := hlast
    rw [this]
  have hspec := unwrapCore_spec hip hianodes hpnodes hkp hapre
    (hnodup ia hianodes) hcond
  have hapost : a ∉ post := by
    intro h
    have := hnodup p hpnodes
    rw [hkp] at this
    have h2 := (List.nodup_append.1 this).2.1
    exact (List.nodup_cons.1 h2).1 h
  refine ⟨hswap, ?_, ?_, ?_, ?_, ?_⟩
  · rw [Dom.unwrapE, hp, hswap]
  · rw [hswap, hspec]; simp [Ne.symm hip]
  · rw [hswap, hspec]; simp [hip]
  · intro u hu m hm hmX
    rw [hswap, hspec]
    have hmia : m ≠ ia := by rintro rfl; exact hmX hiaX
    by_cases hmp : m = p
    · subst hmp
      rw [show (updateKids (updateKids d ia []) m (pre ++ d.kids ia ++ post)).kids m
          = pre ++ d.kids ia ++ post from by simp]
      intro humem
      have hukidsp : (u ∈ pre ∨ u ∈ post) ∨ u ∈ d.kids ia := by
        rcases List.mem_append.1 humem with h | h
        · rcases List.mem_append.1 h with h2 | h2
          · exact Or.inl (Or.inl h2)
          · exact Or.inr h2
        · exact Or.inl (Or.inr h)
      rcases List.mem_cons.1 hu with hua | hux
      · rcases hukidsp with h | h
        · rcases h with h | h
          · exact hapre (hua ▸ h)
          · exact hapost (hua ▸ h)
        · exact (hcond u h).1 hua
      · obtain ⟨v, hvd, hvk⟩ := chain_pred hv u hux
        have hvX : v ∈ a :: xs := List.dropLast_subset _ hvd
        have hvnodes : v ∈ d.nodes := hmem v hvX
        have humemv : u ∈ d.kids v := by rw [hvk]; exact List.mem_singleton.2 rfl
        rcases hukidsp with h | h
        · have hukp : u ∈ d.kids m := by
            rw [hkp]
            rcases h with h | h
            · exact List.mem_append_left _ h
            · exact List.mem_append_right _ (List.mem_cons_of_mem _ h)
          exact hpX ((huniq m hm v hvnodes u hukp humemv) ▸ hvX)
        · have hvia : v = ia := huniq v hvnodes ia hianodes u humemv h
          have hnotd : ia ∉ (a :: xs).dropLast :=
            hlast ▸ getLast_not_mem_dropLast (List.cons_ne_nil a xs) hnd
          exact hnotd (hvia ▸ hvd)
    · rw [show (updateKids (updateKids d ia []) p (pre ++ d.kids ia ++ post)).kids m
          = d.kids m from by simp [hmp, hmia]]
      intro humem
      rcases List.mem_cons.1 hu with hua | hux
      · exact hmp (huniq m hm p hpnodes u humem (hua ▸ hakp))
      · obtain ⟨v, hvd, hvk⟩ := chain_pred hv u hux
        have hvX : v ∈ a :: xs := List.dropLast_subset _ hvd
        have hvnodes : v ∈ d.nodes := hmem v hvX
        have humemv : u ∈ d.kids v := by rw [hvk]; exact List.mem_singleton.2 rfl
        exact hmX ((huniq m hm v hvnodes u humem humemv) ▸ hvX)
  · intro m hmp hmia
    rw [hswap, hspec]
    simp [hmp, hmia]

/-- A store whose root node 0 wraps the single node 1. -/
def rootDom : Dom :=
  { nodes := [0, 1]
    kids := fun m => if m = 0 then [1] else [] }

/-- Counterexample to C4 as stated: for the structurally valid non-empty
chain `[0]` of `rootDom`, whose outer node is parentless,
`swapWraps([0], [])` silently leaves the tree unchanged (node 1 is still
wrapped and node 0 still present), while `unwrap(0, 0)` throws; so the
swap neither matches `unwrap` nor promotes the children and removes the
chain. -/
theorem claim_C4_counterexample :
    ChainValid rootDom [0] ∧ rootDom.WF ∧
    rootDom.swapWraps [0] [] = rootDom ∧
    rootDom.unwrapE 0 0 = .error "You cannot unwrap a parentless node." ∧
    (rootDom.swapWraps [0] []).kids 0 = [1] := by
  refine ⟨trivial, by decide, ?_, ?_, ?_⟩
  · show (match rootDom.parent 0 with
      | none => rootDom
      | some p => rootDom.unwrapCore 0 0 p) = rootDom
    rw [show rootDom.parent 0 = none from by decide]
  · rw [Dom.unwrapE, show rootDom.parent 0 = none from by decide]
  · show (match rootDom.parent 0 with
      | none => rootDom
      | some p => rootDom.unwrapCore 0 0 p).kids 0 = [1]
    rw [show rootDom.parent 0 = none from by decide]
    decide

/-- Witness for the amended C4 on `egDom`: the chain `[1, 3]` sits under
parent 0 between `[]` and `[2]`. -/
theorem claim_C4_witness :
    egDom.swapWraps [1, 3] [] = egDom.unwrapCore 1 3 0 ∧
    egDom.unwrapE 1 3 = .ok (egDom.swapWraps [1, 3] []) ∧
    (egDom.swapWraps [1, 3] []).kids 0 = [] ++ egDom.kids 3 ++ [2] ∧
    (egDom.swapWraps [1, 3] []).kids 3 = [] ∧
    (∀ u ∈ [1, 3], ∀ m ∈ egDom.nodes, m ∉ ([1, 3] : List Nat) →
      u ∉ (egDom.swapWraps [1, 3] []).kids m) ∧
    (∀ m, m ≠ 0 → m ≠ 3 → (egDom.swapWraps [1, 3] []).kids m = egDom.kids m) :=
  claim_C4_swap_empty_is_unwrap (by decide) (by exact ⟨rfl, trivial⟩) (by decide)
    (by decide) (show ((1 : Nat) :: [3]).getLast (List.cons_ne_nil 1 [3]) = 3 from rfl)
    (show egDom.parent 1 = some 0 from by decide) (by decide)
    (show egDom.kids 0 = [] ++ 1 :: [2] from rfl) (by decide)

/-! ## Wrap-chain discovery -/

/-- The ascent loop of `WrapChain.getWrapsAround` (the `DOM_UTIL` version
is the same loop over `parentElement`): climb parent links while the
ancestor has exactly one child, collecting inside-out.  The loop is run
with fuel `|nodes|`: in a finite well-formed tree the ascent visits
distinct nodes, so the fuel is never exhausted (on a cyclic store the
source loop would not terminate). -/
def getWrapsAroundRev (d : Dom) : Nat → Nat → List Nat
  | 0, _ => []
  | fuel + 1, n =>
    match d.parent n with
    | none => []
    | some p =>
      if (d.kids p).length ≠ 1 then [] else p :: getWrapsAroundRev d fuel p

/-- `getWrapsAround(node)`: the collected ancestors, reversed to
outside-in order. -/
def Dom.getWrapsAround (d : Dom) (n : Nat) : List Nat :=
  (getWrapsAroundRev d d.nodes.length n).reverse

/-- The descent loop of `WrapChain.getWrapsWithin`: descend the
single-child link while the current node has exactly one child, pushing
each child visited (the `null` check of the source is unreachable when the
child count is exactly one, but is mirrored). -/
def getWrapsWithinGo (d : Dom) : Nat → Nat → List Nat
  | 0, _ => []
  | fuel + 1, n =>
    if (d.kids n).length = 1 then
      match (d.kids n).head? with
      | none => []
      | some c => c :: getWrapsWithinGo d fuel c
    else []

/-- `WrapChain.getWrapsWithin(node)`. -/
def Dom.getWrapsWithin (d : Dom) (n : Nat) : List Nat :=
  getWrapsWithinGo d d.nodes.length n

/-- The `DOM_UTIL.getWrapsWithin` variant: the same loop but with the
descent condition written `childNodes.length !== 1`, so it descends
through nodes that do *not* have exactly one child and stops at
single-child nodes. -/
def getWrapsWithinUtilGo (d : Dom) : Nat → Nat → List Nat
  | 0, _ => []
  | fuel + 1, n =>
    if (d.kids n).length ≠ 1 then
      match (d.kids n).head? with
      | none => []
      | some c => c :: getWrapsWithinUtilGo d fuel c
    else []

/-- `DOM_UTIL.getWrapsWithin(node)`. -/
def Dom.getWrapsWithinUtil (d : Dom) (n : Nat) : List Nat :=
  getWrapsWithinUtilGo d d.nodes.length n

theorem aroundRev_mem {d : Dom} :
    ∀ (fuel n : Nat), ∀ u ∈ getWrapsAroundRev d fuel n, (d.kids u).length = 1 := by
  intro fuel
  induction fuel with
  | zero => intro n u hu; cases hu
  | succ fuel ih =>
    intro n u hu
    rw [getWrapsAroundRev] at hu
    split at hu
    · cases hu
    · split at hu
      · cases hu
      · rename_i p hpar hlen
        rcases List.mem_cons.1 hu with h | h
        · rw [h]; exact not_ne_iff.1 hlen
        · exact ih p u h

theorem withinGo_mem {d : Dom} :
    ∀ (fuel n : Nat), ∀ u ∈ getWrapsWithinGo d fuel n, ∃ m, d.kids m = [u] := by
  intro fuel
  induction fuel with
  | zero => intro n u hu; cases hu
  | succ fuel ih =>
    intro n u hu
    rw [getWrapsWithinGo] at hu
    split at hu
    · rename_i hlen
      obtain ⟨c, hc⟩ := List.length_eq_one.1 hlen
      rw [hc] at hu
      simp only [List.head?_cons] at hu
      rcases List.mem_cons.1 hu with h | h
      · exact ⟨n, by rw [hc, h]⟩
      · exact ih c u h
    · cases hu

/-- The store used to exhibit the `DOM_UTIL.getWrapsWithin` divergence:
node 0 has the two children 1 and 2, and node 1 has the two children
3 and 4. -/
def utilDom : Dom :=
  { nodes := [0, 1, 2, 3, 4]
    kids := fun m => if m = 0 then [1, 2] else if m = 1 then [3, 4] else [] }

/-- Counterexample to C9 as stated: in `rootDom` node 1 (zero children)
appears in `getWrapsWithin(0)`, so a node with 0 children does appear in a
chain computed by the `within` discovery; and in the `DOM_UTIL` variant
even node 1 of `utilDom`, which has two children, appears in
`getWrapsWithin(0)`. -/
theorem claim_C9_counterexample :
    rootDom.getWrapsWithin 0 = [1] ∧ (rootDom.kids 1).length = 0 ∧
    utilDom.getWrapsWithinUtil 0 = [1, 3] ∧ (utilDom.kids 1).length = 2 := by
  decide

/-- C9 (amended): for a node `N` with exactly one child `C`, `around(C)`
includes `N`; every node of an `around` chain has exactly one child; and
every node of a `within` chain (`WrapChain` version) is the sole child of
some node — but the last node of a `within` chain need not have exactly
one child itself, which is what refutes the claim as stated. -/
theorem claim_C9_around_within {d : Dom} {N C : Nat} (hwf : d.WF)
    (hN : N ∈ d.nodes) (hNC : d.kids N = [C]) :
    N ∈ d.getWrapsAround C ∧
    (∀ n : Nat, ∀ u ∈ d.getWrapsAround n, (d.kids u).length = 1) ∧
    (∀ n : Nat, ∀ u ∈ d.getWrapsWithin n, ∃ m, d.kids m = [u]) := by
  obtain ⟨hnodup, huniq, hchild⟩ := hwf
  refine ⟨?_, ?_, ?_⟩
  · have hpar : d.parent C = some N := by
      apply parent_eq_some hN (by rw [hNC]; exact List.mem_singleton.2 rfl)
      intro m hm hcm
      exact huniq m hm N hN C hcm (by rw [hNC]; exact List.mem_singleton.2 rfl)
    rcases hlen : d.nodes.length with _ | k
    · rw [List.length_eq_zero] at hlen
      rw [hlen] at hN; cases hN
    · rw [Dom.getWrapsAround, hlen, List.mem_reverse, getWrapsAroundRev, hpar]
      show N ∈ (if (d.kids N).length ≠ 1 then []
        else N :: getWrapsAroundRev d k N)
      rw [if_neg (by rw [hNC]; simp)]
      exact List.mem_cons_self N _
  · intro n u hu
    exact aroundRev_mem d.nodes.length n u (List.mem_reverse.1 hu)
  · intro n u hu
    exact withinGo_mem d.nodes.length n u hu

/-- Witness for the amended C9 on `rootDom`: node 0 has exactly one child
1, and `around(1) = [0]` indeed contains 0. -/
theorem claim_C9_witness :
    0 ∈ rootDom.getWrapsAround 1 ∧
    (∀ n : Nat, ∀ u ∈ rootDom.getWrapsAround n, (rootDom.kids u).length = 1) ∧
    (∀ n : Nat, ∀ u ∈ rootDom.getWrapsWithin n, ∃ m, rootDom.kids m = [u]) :=
  claim_C9_around_within (by decide) (by decide) rfl

/-! ## The rule interpreter (`Santi.ts`) -/

/-- A `SantiRule`, as in `SantiRules.ts`: selection specifications of an
abstract type `Sel`, node-predicate filters, an operation name with its
configuration of abstract type `Arg`, and an optional name for error
messages. -/
structure SantiRule (Sel Arg : Type) where
  select : Option Sel := none
  defaultSelect : Option Sel := none
  except : Option (Nat → Bool) := none
  onlyIf : Option (Nat → Bool) := none
  op : Option String := none
  arg : Arg
  name : Option String := none

/-- An entry of a `SantiRuleset`: either a rule or a nested ruleset
(`Array.isArray(rule)` distinguishes the two in the source). -/
inductive SantiEntry (Sel Arg : Type) where
  | rule (r : SantiRule Sel Arg)
  | nested (rs : List (SantiEntry Sel Arg))

/-- The filter loop of `Santi.execute` (lines 60-72): a node is pushed
when `allowed && !rejected`, with
`allowed  = (!rule.onlyIf || rule.onlyIf(node))` and
`rejected = (!rule.except || rule.except(node))` — note that the second
line makes `rejected` default to `true` when `except` is absent. -/
def filterSelection (onlyIf except_ : Option (Nat → Bool))
    (raw : List Nat) : List Nat :=
  raw.filter fun node =>
    let allowed := match onlyIf with
      | none => true
      | some f => f node
    let rejected := match except_ with
      | none => true
      | some f => f node
    allowed && !rejected

/-- A configured operation library: name to configured per-node transform
(`SantiOperation = (options) => (node) => void`, embedded as a store
transformer). -/
def OperationLibrary (Arg : Type) := String → Option (Arg → Dom → Nat → Dom)

/-- The body of `Santi.execute`: walk the entries in order, threading the
current selection; recurse into nested rulesets with the current selection
as seed and discard their resulting selection; compute the raw selection
from `select` / carried selection / `defaultSelect`; filter it; then
dispatch the operation to every selected node in order.  `selectNodes` is
the external selector engine and `i`/`len` feed the error messages. -/
def execGo {Sel Arg : Type} (ops : OperationLibrary Arg)
    (selectNodes : Dom → Sel → List Nat) :
    Nat → Nat → Dom → List (SantiEntry Sel Arg) → Option (List Nat) →
    Except String Dom
  | _, _, d, [], _ => .ok d
  | i, len, d, .nested rs :: rest, currentSelection =>
    match execGo ops selectNodes 0 rs.length d rs currentSelection with
    | .error e => .error e
    | .ok d' => execGo ops selectNodes (i + 1) len d' rest currentSelection
  | i, len, d, .rule rule :: rest, currentSelection =>
    let rawResult : Except String (List Nat × Bool) :=
      match rule.select with
      | some sel => .ok (selectNodes d sel, true)
      | none =>
        match currentSelection with
        | none =>
          match rule.defaultSelect with
          | some ds => .ok (selectNodes d ds, true)
          | none => .error "Cannot begin Santi ruleset with rule that makes no selection!"
        | some cur => .ok (cur, false)
    match rawResult with
    | .error e => .error e
    | .ok (rawSelection, rawIsNew) =>
      let ruleHasFilters := rule.onlyIf.isSome || rule.except.isSome
      let (newSelection, selectionChanged) :=
        if ruleHasFilters then
          (filterSelection rule.onlyIf rule.except rawSelection, true)
        else if rawIsNew then
          (rawSelection, true)
        else
          (rawSelection, false)
      match rule.op with
      | none =>
        if selectionChanged then
          execGo ops selectNodes (i + 1) len d rest (some newSelection)
        else
          let errName := match rule.name with
            | some nm => s!"with name {nm}\x7d "
            | none => ""
          .error s!"Rules must alter the selection or perform an operation, but rule {i} of {len} {errName}in the current ruleset the did not."
      | some operationName =>
        match ops operationName with
        | none =>
          let errName := match rule.name with
            | some nm => s!"with name {nm}\x7d "
            | none => ""
          .error s!"Rule {i} of {len} {errName} had an unrecognized operation name \x22{operationName}\x22."
        | some operation =>
          let configuredOp := operation rule.arg
          let d' := newSelection.foldl (fun acc n => configuredOp acc n) d
          execGo ops selectNodes (i + 1) len d' rest (some newSelection)

/-- `Santi.execute(root, ruleset, selection)`. -/
def Santi.execute {Sel Arg : Type} (ops : OperationLibrary Arg)
    (selectNodes : Dom → Sel → List Nat) (d : Dom)
    (ruleset : List (SantiEntry Sel Arg)) (selection : Option (List Nat)) :
    Except String Dom :=
  execGo ops selectNodes 0 ruleset.length d ruleset selection

/-- C1: the filter of `Santi.execute` computes
`rejected = (!rule.except || rule.except(node))`, so when `except` is
absent every node counts as rejected and a rule carrying only `onlyIf`
keeps no node at all — not the nodes for which `onlyIf` is true, as the
claim states.  (A rule with only `except` does keep exactly the nodes
`except` does not reject, and a rule with both keeps the nodes allowed and
not rejected.) -/
theorem claim_C1_filter_rejects_all :
    (∀ (f : Nat → Bool) (raw : List Nat),
      filterSelection (some f) none raw = []) ∧
    filterSelection (some fun _ => true) none [5] = [] ∧
    filterSelection none (some fun n => n == 5) [4, 5, 6] = [4, 6] ∧
    filterSelection (some fun n => 4 ≤ n) (some fun n => n == 5) [3, 4, 5, 6]
      = [4, 6] := by
  refine ⟨?_, rfl, rfl, rfl⟩
  intro f raw
  simp [filterSelection]

/-- C6: processing a nested-ruleset entry recurses with the current
selection as the nested seed and continues with the *same* current
selection; in particular a later carry-forward rule of the outer ruleset
applies its operation to exactly the selection captured before the nested
entry, whatever selections the nested call produced internally. -/
theorem claim_C6_nested_does_not_propagate {Sel Arg : Type}
    (ops : OperationLibrary Arg) (selectNodes : Dom → Sel → List Nat)
    (i len : Nat) (d : Dom) (rs rest : List (SantiEntry Sel Arg))
    (r : SantiRule Sel Arg) (cur : List Nat)
    {opName : String} {f : Arg → Dom → Nat → Dom}
    (hsel : r.select = none) (honly : r.onlyIf = none) (hexc : r.except = none)
    (hop : r.op = some opName) (hf : ops opName = some f) :
    execGo ops selectNodes i len d (.nested rs :: .rule r :: rest) (some cur) =
      match execGo ops selectNodes 0 rs.length d rs (some cur) with
      | .error e => .error e
      | .ok d' =>
        execGo ops selectNodes (i + 2) len
          (cur.foldl (fun acc n => f r.arg acc n) d') rest (some cur) := by
  have hstep : execGo ops selectNodes i len d
      (.nested rs :: .rule r :: rest) (some cur) =
      match execGo ops selectNodes 0 rs.length d rs (some cur) with
      | .error e => Except.error e
      | .ok d' => execGo ops selectNodes (i + 1) len d'
          (.rule r :: rest) (some cur) := by rw [execGo]
  rw [hstep]
  rcases execGo ops selectNodes 0 rs.length d rs (some cur) with e | d'
  · rfl
  · show execGo ops selectNodes (i + 1) len d' (.rule r :: rest) (some cur) = _
    rw [execGo]
    simp only [hsel, honly, hexc, hop, hf, Option.isSome_none, Bool.or_self]
    rfl

/-- A two-entry operation library over trivial configurations, for
witnesses: the name "op" maps to the identity transform. -/
def egOps : OperationLibrary Unit :=
  fun s => if s = "op" then some (fun _ d _ => d) else none

/-- A selector engine stub used by witnesses. -/
def egSelect : Dom → Unit → List Nat := fun _ _ => []

/-- A rule with no selection data whose operation is "op". -/
def egRuleOp : SantiRule Unit Unit :=
  ⟨none, none, none, none, some "op", (), none⟩

/-- A rule with no selection data and no operation. -/
def egRuleNone : SantiRule Unit Unit :=
  ⟨none, none, none, none, none, (), none⟩

/-- Witness for C6: an empty nested ruleset followed by a carry-forward
rule running the "op" operation on the seeded selection `[7]`. -/
theorem claim_C6_witness :
    execGo egOps egSelect 0 2 egDom [.nested [], .rule egRuleOp] (some [7]) =
      match execGo egOps egSelect 0 0 egDom [] (some [7]) with
      | .error e => .error e
      | .ok d' =>
        execGo egOps egSelect 2 2
          (([7] : List Nat).foldl
            (fun acc n => (fun _ d _ => d : Unit → Dom → Nat → Dom)
              egRuleOp.arg acc n) d')
          [] (some [7]) :=
  claim_C6_nested_does_not_propagate egOps egSelect 0 2 egDom [] [] egRuleOp
    [7] rfl rfl rfl rfl rfl

/-- C7: a rule whose `select` and `defaultSelect` are both absent, reached
while the current selection is still undefined, makes `execute` raise the
fatal "cannot begin ruleset" error before dispatching any operation. -/
theorem claim_C7_no_selection_is_fatal {Sel Arg : Type}
    (ops : OperationLibrary Arg) (selectNodes : Dom → Sel → List Nat)
    (i len : Nat) (d : Dom) (r : SantiRule Sel Arg)
    (rest : List (SantiEntry Sel Arg))
    (hsel : r.select = none) (hdef : r.defaultSelect = none) :
    execGo ops selectNodes i len d (.rule r :: rest) none =
      .error "Cannot begin Santi ruleset with rule that makes no selection!" := by
  rw [execGo]
  simp only [hsel, hdef]

/-- Witness for C7: a singleton ruleset whose only rule has no `select`
and no `defaultSelect`, executed with no caller-seeded selection. -/
theorem claim_C7_witness :
    execGo egOps egSelect 0 1 egDom [.rule egRuleNone] none =
      .error "Cannot begin Santi ruleset with rule that makes no selection!" :=
  claim_C7_no_selection_is_fatal egOps egSelect 0 1 egDom egRuleNone [] rfl rfl

/-! ## The lazy wrap resolver's replicate branch (`DOM_UTIL.delazyWraps`) -/

/-- The pairing loop of `DOM_UTIL.elemArrayToWraps`
(`elems[i - 1].appendChild(elems[i])` for `i = 1 .. len - 1`), acting on
freshly built, detached nodes; a JS `undefined` entry is `none`, and
calling `appendChild` on it (or passing it as the argument) raises a
`TypeError`. -/
def elemArrayToWrapsGo : Option Nat → List (Option Nat) → Except String Unit
  | _, [] => .ok ()
  | none, _ :: _ =>
    .error "TypeError: Cannot read property appendChild of undefined"
  | some _, none :: _ =>
    .error "TypeError: appendChild argument is not a Node"
  | some _, some c :: rest => elemArrayToWrapsGo (some c) rest

/-- `DOM_UTIL.elemArrayToWraps(elems)`: link each element to the next and
return the array. -/
def elemArrayToWraps (elems : List (Option Nat)) :
    Except String (List (Option Nat)) :=
  match elems with
  | [] => .ok []
  | e :: rest => (elemArrayToWrapsGo e rest).map fun _ => elems

/-- The replicate branch of `DOM_UTIL.delazyWraps` (spec neither an array,
a function, nor a node): `newWraps = Array.from({length: templateWraps.length})`
fills the array with `undefined`; the following
`newWraps.map(() => delazyNode(wrapSpec))` builds fresh detached nodes but
its result array is discarded, so `newWraps` still holds only `undefined`
when it is handed to `elemArrayToWraps`. -/
def delazyWrapsReplicate (templateWrapsLen : Nat) :
    Except String (List (Option Nat)) :=
  let newWraps : List (Option Nat) := List.replicate templateWrapsLen none
  elemArrayToWraps newWraps

/-- C5: in replicate mode the resolver never returns a chain of freshly
resolved nodes: the mapped fresh nodes are discarded, so for a template
chain of length two (or more) `elemArrayToWraps` dereferences `undefined`
and throws, and for length one the returned array still holds `undefined`
rather than a resolved node. -/
theorem claim_C5_replicate_discards_nodes :
    delazyWrapsReplicate 2 =
      .error "TypeError: Cannot read property appendChild of undefined" ∧
    delazyWrapsReplicate 1 = .ok [none] ∧
    (∀ L, 2 ≤ L → delazyWrapsReplicate L =
      .error "TypeError: Cannot read property appendChild of undefined") := by
  refine ⟨rfl, rfl, ?_⟩
  intro L hL
  obtain ⟨k, rfl⟩ : ∃ k, L = k + 2 := ⟨L - 2, by omega⟩
  rfl

/-- Witness for C5's universally quantified conjunct at length 3. -/
theorem claim_C5_witness :
    delazyWrapsReplicate 3 =
      .error "TypeError: Cannot read property appendChild of undefined" :=
  claim_C5_replicate_discards_nodes.2.2 3 (by decide)

/-! ## Toolbox for the structural-swap round trip (C2) -/

theorem find?_congr_on {p q : Nat → Bool} :
    ∀ {L : List Nat}, (∀ m ∈ L, p m = q m) → L.find? p = L.find? q := by
  intro L
  induction L with
  | nil => intro _; rfl
  | cons x t ih =>
    intro h
    by_cases hx : p x = true
    · rw [List.find?_cons_of_pos _ hx,
        List.find?_cons_of_pos _ (by rw [← h x (List.mem_cons_self x t)]; exact hx)]
    · rw [List.find?_cons_of_neg _ hx,
        List.find?_cons_of_neg _ (by rw [← h x (List.mem_cons_self x t)]; exact hx),
        ih fun m hm => h m (List.mem_cons_of_mem _ hm)]

/-- Updating a child list does not change the parent of `n` as long as the
update leaves `n`'s membership in that list unchanged. -/
theorem parent_updateKids_iff {d : Dom} {k n : Nat} {l : List Nat}
    (h : n ∈ l ↔ n ∈ d.kids k) :
    (updateKids d k l).parent n = d.parent n := by
  apply find?_congr_on
  intro m _
  by_cases hmk : m = k
  · subst hmk
    simp only [updateKids_kids, if_pos rfl]
    exact decide_eq_decide.2 h
  · simp [hmk]

theorem nextAfter_eq_head? {b : Nat} :
    ∀ {pre : List Nat} (post : List Nat), b ∉ pre →
      nextAfter (pre ++ b :: post) b = post.head? := by
  intro pre
  induction pre with
  | nil => intro post _; simp [nextAfter]
  | cons x t ih =>
    intro post h
    have hxb : x ≠ b := by rintro rfl; exact h (List.mem_cons_self x t)
    rw [List.cons_append, nextAfter, if_neg hxb]
    exact ih post fun hm => h (List.mem_cons_of_mem _ hm)

/-- Two distinct members of a list occur in one of the two orders. -/
theorem mem_mem_split {L : List Nat} {a b : Nat} (ha : a ∈ L) (hb : b ∈ L)
    (hab : a ≠ b) :
    (∃ s t u, L = s ++ a :: t ++ b :: u) ∨
    (∃ s t u, L = s ++ b :: t ++ a :: u) := by
  induction L with
  | nil => cases ha
  | cons x rest ih =>
    by_cases hxa : x = a
    · subst hxa
      have hbr : b ∈ rest := by
        rcases List.mem_cons.1 hb with h | h
        · exact absurd h.symm hab
        · exact h
      obtain ⟨t, u, htu⟩ := List.append_of_mem hbr
      exact Or.inl ⟨[], t, u, by rw [htu]; rfl⟩
    · by_cases hxb : x = b
      · subst hxb
        have har : a ∈ rest := by
          rcases List.mem_cons.1 ha with h | h
          · exact absurd h (fun he => hxa he.symm)
          · exact h
        obtain ⟨t, u, htu⟩ := List.append_of_mem har
        exact Or.inr ⟨[], t, u, by rw [htu]; rfl⟩
      · have har : a ∈ rest := by
          rcases List.mem_cons.1 ha with h | h
          · exact absurd h (fun he => hxa he.symm)
          · exact h
        have hbr : b ∈ rest := by
          rcases List.mem_cons.1 hb with h | h
          · exact absurd h (fun he => hxb he.symm)
          · exact h
        rcases ih har hbr with ⟨s, t, u, h⟩ | ⟨s, t, u, h⟩
        · exact Or.inl ⟨x :: s, t, u, by rw [h]; rfl⟩
        · exact Or.inr ⟨x :: s, t, u, by rw [h]; rfl⟩

/-- A member of a duplicate-free list splits it with the member nowhere
else. -/
theorem nodup_mem_split {L : List Nat} {a : Nat} (ha : a ∈ L)
    (hnd : L.Nodup) :
    ∃ pre post, L = pre ++ a :: post ∧ a ∉ pre ∧ a ∉ post := by
  obtain ⟨pre, post, h⟩ := List.append_of_mem ha
  subst h
  have h1 := List.disjoint_of_nodup_append hnd
  have h2 := (List.nodup_append.1 hnd).2.1
  refine ⟨pre, post, rfl, fun hm => h1 hm (List.mem_cons_self a post), ?_⟩
  exact (List.nodup_cons.1 h2).1

theorem insertBefore_some_of_no_parent {d : Dom} {n r : Nat}
    (h : d.parent n = none) (hrn : r ≠ n) (p : Nat) :
    d.insertBefore p n (some r) =
      updateKids d p (insertBeforeIn (d.kids p) n r) := by
  simp [Dom.insertBefore, Dom.remove, h, hrn]

/-- Steps 1-2 of `swapParentsAndChildren`: clearing `inner2` and
transferring `inner1`'s children into it replaces `inner2`'s child list by
`inner1`'s and empties `inner1`'s. -/
theorem childrenSwap_step {d : Dom} {ia ib : Nat} (hiaib : ia ≠ ib)
    (hian : ia ∈ d.nodes)
    (hCand : (d.kids ia).Nodup)
    (hCap : ∀ c ∈ d.kids ia, ∀ m ∈ d.nodes, c ∈ d.kids m → m = ia) :
    (d.clearChildren ib).transferChildren ia ib =
      updateKids (updateKids d ib (d.kids ia)) ia [] := by
  rw [clearChildren_spec]
  set d' := updateKids d ib [] with hd'
  have hk : d'.kids ia = d.kids ia := by simp [hd', hiaib]
  have hpar' : ∀ c ∈ d'.kids ia, ∀ m ∈ d'.nodes, c ∈ d'.kids m → m = ia := by
    intro c hc m hm hcm
    rw [hk] at hc
    by_cases hmib : m = ib
    · rw [hmib] at hcm; simp [hd'] at hcm
    · rw [show d'.kids m = d.kids m from by simp [hd', hmib]] at hcm
      exact hCap c hc m (by simpa [hd'] using hm) hcm
  rw [transferChildren_spec hiaib (by simpa [hd'] using hian)
    (by rwa [hk]) hpar']
  refine Dom.ext' (by simp [hd']) fun m => ?_
  by_cases hmia : m = ia
  · simp [hmia, hiaib]
  · by_cases hmib : m = ib
    · simp [hmia, hmib, hd', Ne.symm hiaib, hiaib]
    · simp [hmia, hmib, hd']

theorem nodup_split_facts {α' β : List Nat} {x : Nat}
    (h : (α' ++ x :: β).Nodup) :
    x ∉ α' ∧ x ∉ β ∧ ∀ y ∈ β, y ∉ α' := by
  have h1 := List.disjoint_of_nodup_append h
  have h2 := (List.nodup_append.1 h).2.1
  refine ⟨fun hm => h1 hm (List.mem_cons_self x β), (List.nodup_cons.1 h2).1,
    fun y hy hya => h1 hya (List.mem_cons_of_mem _ hy)⟩

theorem spac_unfold_some_some {d : Dom} {o1 i1 o2 i2 q1 q2 : Nat}
    (hpa : d.parent o1 = some q1) (hpb : d.parent o2 = some q2) :
    d.swapParentsAndChildren o1 i1 o2 i2 =
      ((((d.clearChildren i2).transferChildren i1 i2).insertBefore q1 o2
        (some o1)).insertBefore q2 o1 (d.nextSibling o2)).appendContent i1
        (d.kids i2) := by
  rw [Dom.swapParentsAndChildren]
  simp only [hpa, hpb]

theorem spac_unfold_none_some {d : Dom} {o1 i1 o2 i2 q2 : Nat}
    (hpa : d.parent o1 = none) (hpb : d.parent o2 = some q2) :
    d.swapParentsAndChildren o1 i1 o2 i2 =
      ((((d.clearChildren i2).transferChildren i1 i2).remove o2).insertBefore
        q2 o1 (d.nextSibling o2)).appendContent i1 (d.kids i2) := by
  rw [Dom.swapParentsAndChildren]
  simp only [hpa, hpb]

theorem spac_unfold_some_none {d : Dom} {o1 i1 o2 i2 q1 : Nat}
    (hpa : d.parent o1 = some q1) (hpb : d.parent o2 = none) :
    d.swapParentsAndChildren o1 i1 o2 i2 =
      ((((d.clearChildren i2).transferChildren i1 i2).insertBefore q1 o2
        (some o1)).remove o1).appendContent i1 (d.kids i2) := by
  rw [Dom.swapParentsAndChildren]
  simp only [hpa, hpb]

theorem spac_unfold_none_none {d : Dom} {o1 i1 o2 i2 : Nat}
    (hpa : d.parent o1 = none) (hpb : d.parent o2 = none) :
    d.swapParentsAndChildren o1 i1 o2 i2 =
      ((((d.clearChildren i2).transferChildren i1 i2).remove o2).remove
        o1).appendContent i1 (d.kids i2) := by
  rw [Dom.swapParentsAndChildren]
  simp only [hpa, hpb]

/-- One `swapParentsAndChildren(a, ia, b, ib)` where the two outer nodes
live under distinct parents `q1` and `q2`: the inner child lists are
exchanged and each outer node takes over the other's position. -/
theorem spac_diff_parents {d : Dom} {a ia b ib q1 q2 : Nat}
    {α1 β1 α2 β2 : List Nat}
    (hab : a ≠ b) (hiaib : ia ≠ ib)
    (hq1ia : q1 ≠ ia) (hq1ib : q1 ≠ ib) (hq2ia : q2 ≠ ia) (hq2ib : q2 ≠ ib)
    (hq12 : q1 ≠ q2)
    (hian : ia ∈ d.nodes) (hibn : ib ∈ d.nodes)
    (hpa : d.parent a = some q1) (hpb : d.parent b = some q2)
    (hkq1 : d.kids q1 = α1 ++ a :: β1) (hkq2 : d.kids q2 = α2 ++ b :: β2)
    (hq1nd : (d.kids q1).Nodup) (hq2nd : (d.kids q2).Nodup)
    (haq2 : a ∉ d.kids q2)
    (hCand : (d.kids ia).Nodup) (hCbnd : (d.kids ib).Nodup)
    (hCap : ∀ c ∈ d.kids ia, ∀ m ∈ d.nodes, c ∈ d.kids m → m = ia)
    (hCbp : ∀ c ∈ d.kids ib, ∀ m ∈ d.nodes, c ∈ d.kids m → m = ib) :
    d.swapParentsAndChildren a ia b ib =
      updateKids (updateKids (updateKids (updateKids d ia (d.kids ib)) ib
        (d.kids ia)) q1 (α1 ++ b :: β1)) q2 (α2 ++ a :: β2) := by
  obtain ⟨hq1n, hakq1⟩ := parent_spec hpa
  obtain ⟨hq2n, hbkq2⟩ := parent_spec hpb
  obtain ⟨haα1, haβ1, hβα1⟩ := nodup_split_facts (hkq1 ▸ hq1nd)
  obtain ⟨hbα2, hbβ2, hβα2⟩ := nodup_split_facts (hkq2 ▸ hq2nd)
  have haCa : a ∉ d.kids ia := fun h => hq1ia (hCap a h q1 hq1n hakq1)
  have haCb : a ∉ d.kids ib := fun h => hq1ib (hCbp a h q1 hq1n hakq1)
  have hbCa : b ∉ d.kids ia := fun h => hq2ia (hCap b h q2 hq2n hbkq2)
  have hbCb : b ∉ d.kids ib := fun h => hq2ib (hCbp b h q2 hq2n hbkq2)
  rw [spac_unfold_some_some hpa hpb,
    childrenSwap_step hiaib hian hCand hCap]
  set S2 := updateKids (updateKids d ib (d.kids ia)) ia [] with hS2
  have hS2q1 : S2.kids q1 = α1 ++ a :: β1 := by
    simp [hS2, hq1ia, hq1ib, hkq1]
  have hS2q2 : S2.kids q2 = α2 ++ b :: β2 := by
    simp [hS2, hq2ia, hq2ib, hkq2]
  have hS2pb : S2.parent b = some q2 := by
    rw [hS2, parent_updateKids_iff (by simp [hiaib, hbCa]),
      parent_updateKids_iff (by simp [hbCa, hbCb])]
    exact hpb
  -- step 3: put b at a's place under q1
  rw [insertBefore_some_of_parent hS2pb hab q1]
  have hrm3 : removeChild S2 q2 b = updateKids S2 q2 (α2 ++ β2) := by
    rw [removeChild, hS2q2, erase_of_not_mem_left hbα2, List.erase_cons_head]
  rw [hrm3]
  have hk3 : (updateKids S2 q2 (α2 ++ β2)).kids q1 = α1 ++ a :: β1 := by
    simp [hq12, hS2q1]
  rw [hk3, insertBeforeIn_split haα1]
  set S3 := updateKids (updateKids S2 q2 (α2 ++ β2)) q1 (α1 ++ b :: a :: β1)
    with hS3
  -- step 4: put a at b's old place under q2
  have hiff1 : a ∈ (α1 ++ b :: a :: β1) ↔
      a ∈ (updateKids S2 q2 (α2 ++ β2)).kids q1 :=
    iff_of_true (by simp) (by rw [hk3]; simp)
  have hiff2 : a ∈ (α2 ++ β2) ↔ a ∈ S2.kids q2 := by
    apply iff_of_false
    · intro h
      apply haq2
      rw [hkq2]
      rcases List.mem_append.1 h with h | h
      · exact List.mem_append_left _ h
      · exact List.mem_append_right _ (List.mem_cons_of_mem _ h)
    · intro h
      rw [hS2q2, ← hkq2] at h
      exact haq2 h
  have hS3pa : S3.parent a = some q1 := by
    rw [hS3, parent_updateKids_iff hiff1, parent_updateKids_iff hiff2, hS2,
      parent_updateKids_iff (by simp [hiaib, haCa]),
      parent_updateKids_iff (by simp [haCa, haCb])]
    exact hpa
  have hsib : d.nextSibling b = β2.head? := by
    rw [nextSibling_of_parent hpb, hkq2, nextAfter_eq_head? β2 hbα2]
  have hrm4 : removeChild S3 q1 a = updateKids S3 q1 (α1 ++ b :: β1) := by
    rw [removeChild]
    have : S3.kids q1 = α1 ++ b :: a :: β1 := by simp [hS3]
    rw [this, erase_of_not_mem_left haα1,
      List.erase_cons_tail (by simpa using (Ne.symm hab)), List.erase_cons_head]
  have hk4 : (updateKids S3 q1 (α1 ++ b :: β1)).kids q2 = α2 ++ β2 := by
    simp [Ne.symm hq12, hS3]
  have hstep4 : S3.insertBefore q2 a (d.nextSibling b) =
      updateKids (updateKids S3 q1 (α1 ++ b :: β1)) q2 (α2 ++ a :: β2) := by
    rw [hsib]
    cases hβ2 : β2 with
    | nil =>
      rw [List.head?_nil, insertBefore_none_of_parent hS3pa, hrm4, hk4, hβ2]
      simp
    | cons s β2' =>
      have hsa : s ≠ a := by
        rintro rfl
        exact haq2 (by rw [hkq2, hβ2]
                       exact List.mem_append_right _
                         (List.mem_cons_of_mem _ (List.mem_cons_self s β2')))
      rw [List.head?_cons, insertBefore_some_of_parent hS3pa hsa, hrm4, hk4,
        hβ2]
      rw [insertBeforeIn_split (hβα2 s (by rw [hβ2]; exact List.mem_cons_self s β2'))]
  rw [hstep4]
  set S4 := updateKids (updateKids S3 q1 (α1 ++ b :: β1)) q2 (α2 ++ a :: β2)
    with hS4
  -- step 5: give ib's old children to ia
  have hdetach : ∀ c ∈ d.kids ib, ∀ m ∈ S4.nodes, c ∉ S4.kids m := by
    intro c hc m hm hmem
    have hm' : m ∈ d.nodes := by simpa [hS4, hS3, hS2] using hm
    by_cases hmq2 : m = q2
    · rw [show S4.kids m = α2 ++ a :: β2 from by rw [hmq2]; simp [hS4]] at hmem
      rcases List.mem_append.1 hmem with h | h
      · exact hq2ib (hCbp c hc q2 hq2n (by rw [hkq2]; exact List.mem_append_left _ h))
      · rcases List.mem_cons.1 h with h | h
        · exact haCb (h ▸ hc)
        · exact hq2ib (hCbp c hc q2 hq2n
            (by rw [hkq2]
                exact List.mem_append_right _ (List.mem_cons_of_mem _ h)))
    · by_cases hmq1 : m = q1
      · rw [show S4.kids m = α1 ++ b :: β1 from by
          rw [hmq1]; simp [hS4, hS3, Ne.symm hq12, hq12]] at hmem
        rcases List.mem_append.1 hmem with h | h
        · exact hq1ib (hCbp c hc q1 hq1n (by rw [hkq1]; exact List.mem_append_left _ h))
        · rcases List.mem_cons.1 h with h | h
          · exact hbCb (h ▸ hc)
          · exact hq1ib (hCbp c hc q1 hq1n
              (by rw [hkq1]
                  exact List.mem_append_right _ (List.mem_cons_of_mem _ h)))
      · by_cases hmia : m = ia
        · rw [show S4.kids m = [] from by
            rw [hmia]; simp [hS4, hS3, hS2, Ne.symm hq1ia, Ne.symm hq2ia]] at hmem
          cases hmem
        · by_cases hmib : m = ib
          · rw [show S4.kids m = d.kids ia from by
              rw [hmib]; simp [hS4, hS3, hS2, Ne.symm hq1ib, Ne.symm hq2ib,
                Ne.symm hiaib]] at hmem
            exact (Ne.symm hiaib) (hCap c hmem ib hibn hc)
          · rw [show S4.kids m = d.kids m from by
              simp [hS4, hS3, hS2, hmq1, hmq2, hmia, hmib]] at hmem
            exact hmib (hCbp c hc m hm' hmem)
  rw [appendContent_spec (d.kids ib) S4 ia hCbnd hdetach]
  have hS4ia : S4.kids ia = [] := by
    simp [hS4, hS3, hS2, Ne.symm hq1ia, Ne.symm hq2ia]
  rw [hS4ia, List.nil_append]
  refine Dom.ext' (by simp [hS4, hS3, hS2]) fun m => ?_
  by_cases hmia : m = ia
  · simp [hS4, hS3, hS2, hmia, Ne.symm hq1ia, Ne.symm hq2ia, hq1ia, hq2ia,
      hiaib, Ne.symm hiaib]
  · by_cases hmib : m = ib
    · simp [hS4, hS3, hS2, hmia, hmib, Ne.symm hq1ib, Ne.symm hq2ib,
        Ne.symm hiaib, hq1ib, hq2ib, hiaib]
    · by_cases hmq1 : m = q1
      · simp [hS4, hS3, hS2, hmia, hmib, hmq1, Ne.symm hq12, hq12, hq1ia,
          hq1ib]
      · by_cases hmq2 : m = q2
        · simp [hS4, hS3, hS2, hmia, hmib, hmq1, hmq2, hq2ia, hq2ib]
        · simp [hS4, hS3, hS2, hmia, hmib, hmq1, hmq2]

/-- One `swapParentsAndChildren(a, ia, b, ib)` where both outer nodes sit
under the same parent `q` with `a` before `b`: the inner child lists are
exchanged and the two outer nodes exchange positions in `q`'s child
list. -/
theorem spac_same_a_first {d : Dom} {a ia b ib q : Nat} {α' β γ : List Nat}
    (hab : a ≠ b) (hiaib : ia ≠ ib)
    (hqia : q ≠ ia) (hqib : q ≠ ib)
    (hian : ia ∈ d.nodes) (hibn : ib ∈ d.nodes)
    (hpa : d.parent a = some q) (hpb : d.parent b = some q)
    (hkq : d.kids q = α' ++ a :: β ++ b :: γ)
    (hqnd : (d.kids q).Nodup)
    (hCand : (d.kids ia).Nodup) (hCbnd : (d.kids ib).Nodup)
    (hCap : ∀ c ∈ d.kids ia, ∀ m ∈ d.nodes, c ∈ d.kids m → m = ia)
    (hCbp : ∀ c ∈ d.kids ib, ∀ m ∈ d.nodes, c ∈ d.kids m → m = ib) :
    d.swapParentsAndChildren a ia b ib =
      updateKids (updateKids (updateKids d ia (d.kids ib)) ib (d.kids ia)) q
        (α' ++ b :: β ++ a :: γ) := by
  obtain ⟨hqn, hakq⟩ := parent_spec hpa
  have hbkq : b ∈ d.kids q := (parent_spec hpb).2
  have hkq' : d.kids q = (α' ++ a :: β) ++ b :: γ := by
    rw [hkq, List.append_assoc]
  have hkq2' : d.kids q = α' ++ a :: (β ++ b :: γ) := by
    rw [hkq', List.append_assoc, List.cons_append]
  obtain ⟨hbpre, hbγ, hγpre⟩ := nodup_split_facts (hkq' ▸ hqnd)
  obtain ⟨haα, harest, hrestα⟩ := nodup_split_facts (hkq2' ▸ hqnd)
  have haCa : a ∉ d.kids ia := fun h => hqia (hCap a h q hqn hakq)
  have haCb : a ∉ d.kids ib := fun h => hqib (hCbp a h q hqn hakq)
  have hbCa : b ∉ d.kids ia := fun h => hqia (hCap b h q hqn hbkq)
  have hbCb : b ∉ d.kids ib := fun h => hqib (hCbp b h q hqn hbkq)
  rw [spac_unfold_some_some hpa hpb,
    childrenSwap_step hiaib hian hCand hCap]
  set S2 := updateKids (updateKids d ib (d.kids ia)) ia [] with hS2
  have hS2q : S2.kids q = d.kids q := by simp [hS2, hqia, hqib]
  have hS2pb : S2.parent b = some q := by
    rw [hS2, parent_updateKids_iff (by simp [hiaib, hbCa]),
      parent_updateKids_iff (by simp [hbCa, hbCb])]
    exact hpb
  rw [insertBefore_some_of_parent hS2pb hab q]
  have hrm3 : removeChild S2 q b = updateKids S2 q (α' ++ a :: (β ++ γ)) := by
    rw [removeChild, hS2q, hkq', erase_of_not_mem_left hbpre,
      List.erase_cons_head, List.append_assoc, List.cons_append]
  rw [hrm3]
  have hk3 : (updateKids S2 q (α' ++ a :: (β ++ γ))).kids q =
      α' ++ a :: (β ++ γ) := by simp
  rw [hk3, insertBeforeIn_split haα, updateKids_updateKids_same]
  set S3 := updateKids S2 q (α' ++ b :: a :: (β ++ γ)) with hS3
  have hS3pa : S3.parent a = some q := by
    rw [hS3, parent_updateKids_iff
      (iff_of_true (by simp) (by rw [hS2q, hkq2']; simp)), hS2,
      parent_updateKids_iff (by simp [hiaib, haCa]),
      parent_updateKids_iff (by simp [haCa, haCb])]
    exact hpa
  have hsib : d.nextSibling b = γ.head? := by
    rw [nextSibling_of_parent hpb, hkq', nextAfter_eq_head? γ hbpre]
  have hrm4 : removeChild S3 q a = updateKids S3 q (α' ++ b :: (β ++ γ)) := by
    rw [removeChild]
    have : S3.kids q = α' ++ b :: a :: (β ++ γ) := by simp [hS3]
    rw [this, erase_of_not_mem_left haα,
      List.erase_cons_tail (by simpa using (Ne.symm hab)), List.erase_cons_head]
  have hstep4 : S3.insertBefore q a (d.nextSibling b) =
      updateKids S2 q ((α' ++ b :: β) ++ a :: γ) := by
    rw [hsib]
    cases hγ : γ with
    | nil =>
      rw [List.head?_nil, insertBefore_none_of_parent hS3pa, hrm4,
        updateKids_updateKids_same]
      have : (updateKids S3 q (α' ++ b :: (β ++ γ))).kids q =
          α' ++ b :: (β ++ γ) := by simp
      rw [this, hγ, hS3, updateKids_updateKids_same]
      simp
    | cons g γ' =>
      have hgmem : g ∈ γ := by rw [hγ]; exact List.mem_cons_self g γ'
      have hga : g ∉ α' ++ a :: β := hγpre g hgmem
      have hgb : g ≠ b := by rintro rfl; exact hbγ hgmem
      have hgpre : g ∉ α' ++ b :: β := by
        intro h
        rcases List.mem_append.1 h with h | h
        · exact hga (List.mem_append_left _ h)
        · rcases List.mem_cons.1 h with h | h
          · exact hgb h
          · exact hga (List.mem_append_right _ (List.mem_cons_of_mem _ h))
      have hganot : g ≠ a := by
        rintro rfl
        exact hga (List.mem_append_right _ (List.mem_cons_self _ _))
      rw [List.head?_cons, insertBefore_some_of_parent hS3pa hganot, hrm4,
        updateKids_updateKids_same]
      have : (updateKids S3 q (α' ++ b :: (β ++ γ))).kids q =
          (α' ++ b :: β) ++ g :: γ' := by
        simp [hγ, List.append_assoc]
      rw [this, insertBeforeIn_split hgpre, hS3, updateKids_updateKids_same]
  rw [hstep4]
  set S4 := updateKids S2 q ((α' ++ b :: β) ++ a :: γ) with hS4
  have hsub : ∀ x ∈ (α' ++ b :: β) ++ a :: γ, x ∈ d.kids q := by
    intro x hx
    rw [hkq]
    simp only [List.mem_append, List.mem_cons] at hx ⊢
    tauto
  have hdetach : ∀ c ∈ d.kids ib, ∀ m ∈ S4.nodes, c ∉ S4.kids m := by
    intro c hc m hm hmem
    have hm' : m ∈ d.nodes := by simpa [hS4, hS2] using hm
    by_cases hmq : m = q
    · rw [show S4.kids m = (α' ++ b :: β) ++ a :: γ from by
        rw [hmq]; simp [hS4]] at hmem
      exact hqib (hCbp c hc q hqn (hsub c hmem))
    · by_cases hmia : m = ia
      · rw [show S4.kids m = [] from by
          rw [hmia]; simp [hS4, hS2, Ne.symm hqia]] at hmem
        cases hmem
      · by_cases hmib : m = ib
        · rw [show S4.kids m = d.kids ia from by
            rw [hmib]; simp [hS4, hS2, Ne.symm hqib, Ne.symm hiaib]] at hmem
          exact (Ne.symm hiaib) (hCap c hmem ib hibn hc)
        · rw [show S4.kids m = d.kids m from by
            simp [hS4, hS2, hmq, hmia, hmib]] at hmem
          exact hmib (hCbp c hc m hm' hmem)
  rw [appendContent_spec (d.kids ib) S4 ia hCbnd hdetach]
  have hS4ia : S4.kids ia = [] := by simp [hS4, hS2, Ne.symm hqia]
  rw [hS4ia, List.nil_append]
  refine Dom.ext' (by simp [hS4, hS2]) fun m => ?_
  by_cases hmia : m = ia
  · simp [hS4, hS2, hmia, Ne.symm hqia, hqia, hiaib, Ne.symm hiaib]
  · by_cases hmib : m = ib
    · simp [hS4, hS2, hmia, hmib, Ne.symm hqib, hqib, hiaib, Ne.symm hiaib]
    · by_cases hmq : m = q
      · simp [hS4, hS2, hmia, hmib, hmq, hqia, hqib, List.append_assoc]
      · simp [hS4, hS2, hmia, hmib, hmq]

/-- One `swapParentsAndChildren(a, ia, b, ib)` where both outer nodes sit
under the same parent `q`, `b` before `a`, with at least the node `t`
strictly between them: again the inner child lists are exchanged and the
two outer nodes exchange positions. -/
theorem spac_same_b_first {d : Dom} {a ia b ib q t : Nat} {α' β γ : List Nat}
    (hab : a ≠ b) (hiaib : ia ≠ ib)
    (hqia : q ≠ ia) (hqib : q ≠ ib)
    (hian : ia ∈ d.nodes) (hibn : ib ∈ d.nodes)
    (hpa : d.parent a = some q) (hpb : d.parent b = some q)
    (hkq : d.kids q = α' ++ b :: t :: β ++ a :: γ)
    (hqnd : (d.kids q).Nodup)
    (hCand : (d.kids ia).Nodup) (hCbnd : (d.kids ib).Nodup)
    (hCap : ∀ c ∈ d.kids ia, ∀ m ∈ d.nodes, c ∈ d.kids m → m = ia)
    (hCbp : ∀ c ∈ d.kids ib, ∀ m ∈ d.nodes, c ∈ d.kids m → m = ib) :
    d.swapParentsAndChildren a ia b ib =
      updateKids (updateKids (updateKids d ia (d.kids ib)) ib (d.kids ia)) q
        (α' ++ a :: t :: β ++ b :: γ) := by
  obtain ⟨hqn, hakq⟩ := parent_spec hpa
  have hbkq : b ∈ d.kids q := (parent_spec hpb).2
  have hkq1' : d.kids q = (α' ++ b :: t :: β) ++ a :: γ := by
    rw [hkq, List.append_assoc]
  have hkq2' : d.kids q = α' ++ b :: (t :: β ++ a :: γ) := by
    rw [hkq1', List.append_assoc, List.cons_append, List.cons_append]
  obtain ⟨hapre, haγ, hγpre⟩ := nodup_split_facts (hkq1' ▸ hqnd)
  obtain ⟨hbα, hbrest, hrestα⟩ := nodup_split_facts (hkq2' ▸ hqnd)
  have haα : a ∉ α' := fun h => hapre (List.mem_append_left _ h)
  have hta : t ≠ a := by
    rintro rfl
    exact hapre (List.mem_append_right _ (List.mem_cons_of_mem _
      (List.mem_cons_self t β)))
  have htα : t ∉ α' := hrestα t (List.mem_cons_self t _)
  have haCa : a ∉ d.kids ia := fun h => hqia (hCap a h q hqn hakq)
  have haCb : a ∉ d.kids ib := fun h => hqib (hCbp a h q hqn hakq)
  have hbCa : b ∉ d.kids ia := fun h => hqia (hCap b h q hqn hbkq)
  have hbCb : b ∉ d.kids ib := fun h => hqib (hCbp b h q hqn hbkq)
  rw [spac_unfold_some_some hpa hpb,
    childrenSwap_step hiaib hian hCand hCap]
  set S2 := updateKids (updateKids d ib (d.kids ia)) ia [] with hS2
  have hS2q : S2.kids q = d.kids q := by simp [hS2, hqia, hqib]
  have hS2pb : S2.parent b = some q := by
    rw [hS2, parent_updateKids_iff (by simp [hiaib, hbCa]),
      parent_updateKids_iff (by simp [hbCa, hbCb])]
    exact hpb
  rw [insertBefore_some_of_parent hS2pb hab q]
  have hrm3 : removeChild S2 q b =
      updateKids S2 q ((α' ++ t :: β) ++ a :: γ) := by
    rw [removeChild, hS2q, hkq2', erase_of_not_mem_left hbα,
      List.erase_cons_head, ← List.append_assoc]
  rw [hrm3]
  have hk3 : (updateKids S2 q ((α' ++ t :: β) ++ a :: γ)).kids q =
      (α' ++ t :: β) ++ a :: γ := by simp
  have hapre2 : a ∉ α' ++ t :: β := by
    intro h
    rcases List.mem_append.1 h with h | h
    · exact haα h
    · rcases List.mem_cons.1 h with h | h
      · exact hta h.symm
      · exact hapre (List.mem_append_right _
          (List.mem_cons_of_mem _ (List.mem_cons_of_mem _ h)))
  rw [hk3, insertBeforeIn_split hapre2, updateKids_updateKids_same]
  set S3 := updateKids S2 q ((α' ++ t :: β) ++ b :: a :: γ) with hS3
  have hS3pa : S3.parent a = some q := by
    rw [hS3, parent_updateKids_iff
      (iff_of_true (by simp) (by rw [hS2q, hkq1']; simp)), hS2,
      parent_updateKids_iff (by simp [hiaib, haCa]),
      parent_updateKids_iff (by simp [haCa, haCb])]
    exact hpa
  have hsib : d.nextSibling b = some t := by
    rw [nextSibling_of_parent hpb, hkq2', nextAfter_eq_head? _ hbα]
    rfl
  have hrm4 : removeChild S3 q a =
      updateKids S3 q ((α' ++ t :: β) ++ b :: γ) := by
    rw [removeChild]
    have : S3.kids q = (α' ++ t :: β) ++ b :: a :: γ := by simp [hS3]
    rw [this, erase_of_not_mem_left hapre2,
      List.erase_cons_tail (by simpa using (Ne.symm hab)), List.erase_cons_head]
  have htpre : t ∉ α' := htα
  have hstep4 : S3.insertBefore q a (d.nextSibling b) =
      updateKids S2 q (α' ++ a :: t :: β ++ b :: γ) := by
    rw [hsib, insertBefore_some_of_parent hS3pa hta, hrm4,
      updateKids_updateKids_same]
    have : (updateKids S3 q ((α' ++ t :: β) ++ b :: γ)).kids q =
        α' ++ t :: (β ++ b :: γ) := by simp [List.append_assoc]
    rw [this, insertBeforeIn_split htpre, hS3, updateKids_updateKids_same]
    have heq : α' ++ a :: t :: (β ++ b :: γ) = α' ++ a :: t :: β ++ b :: γ := by
      simp [List.append_assoc]
    rw [heq]
  rw [hstep4]
  set S4 := updateKids S2 q (α' ++ a :: t :: β ++ b :: γ) with hS4
  have hsub : ∀ x ∈ α' ++ a :: t :: β ++ b :: γ, x ∈ d.kids q := by
    intro x hx
    rw [hkq]
    simp only [List.mem_append, List.mem_cons] at hx ⊢
    tauto
  have hdetach : ∀ c ∈ d.kids ib, ∀ m ∈ S4.nodes, c ∉ S4.kids m := by
    intro c hc m hm hmem
    have hm' : m ∈ d.nodes := by simpa [hS4, hS2] using hm
    by_cases hmq : m = q
    · rw [show S4.kids m = α' ++ a :: t :: β ++ b :: γ from by
        rw [hmq]; simp [hS4]] at hmem
      exact hqib (hCbp c hc q hqn (hsub c hmem))
    · by_cases hmia : m = ia
      · rw [show S4.kids m = [] from by
          rw [hmia]; simp [hS4, hS2, Ne.symm hqia]] at hmem
        cases hmem
      · by_cases hmib : m = ib
        · rw [show S4.kids m = d.kids ia from by
            rw [hmib]; simp [hS4, hS2, Ne.symm hqib, Ne.symm hiaib]] at hmem
          exact (Ne.symm hiaib) (hCap c hmem ib hibn hc)
        · rw [show S4.kids m = d.kids m from by
            simp [hS4, hS2, hmq, hmia, hmib]] at hmem
          exact hmib (hCbp c hc m hm' hmem)
  rw [appendContent_spec (d.kids ib) S4 ia hCbnd hdetach]
  have hS4ia : S4.kids ia = [] := by simp [hS4, hS2, Ne.symm hqia]
  rw [hS4ia, List.nil_append]
  refine Dom.ext' (by simp [hS4, hS2]) fun m => ?_
  by_cases hmia : m = ia
  · simp [hS4, hS2, hmia, Ne.symm hqia, hqia, hiaib, Ne.symm hiaib]
  · by_cases hmib : m = ib
    · simp [hS4, hS2, hmia, hmib, Ne.symm hqib, hqib, hiaib, Ne.symm hiaib]
    · by_cases hmq : m = q
      · simp [hS4, hS2, hmia, hmib, hmq, hqia, hqib]
      · simp [hS4, hS2, hmia, hmib, hmq]

/-- One `swapParentsAndChildren(a, ia, b, ib)` where `b` is the immediate
previous sibling of `a`: the captured next-sibling of `b` is `a` itself,
so both re-insertions land at the original positions and only the inner
child lists are exchanged. -/
theorem spac_same_adjacent {d : Dom} {a ia b ib q : Nat} {α' γ : List Nat}
    (hab : a ≠ b) (hiaib : ia ≠ ib)
    (hqia : q ≠ ia) (hqib : q ≠ ib)
    (hian : ia ∈ d.nodes) (hibn : ib ∈ d.nodes)
    (hpa : d.parent a = some q) (hpb : d.parent b = some q)
    (hkq : d.kids q = α' ++ b :: a :: γ)
    (hqnd : (d.kids q).Nodup)
    (hCand : (d.kids ia).Nodup) (hCbnd : (d.kids ib).Nodup)
    (hCap : ∀ c ∈ d.kids ia, ∀ m ∈ d.nodes, c ∈ d.kids m → m = ia)
    (hCbp : ∀ c ∈ d.kids ib, ∀ m ∈ d.nodes, c ∈ d.kids m → m = ib) :
    d.swapParentsAndChildren a ia b ib =
      updateKids (updateKids d ia (d.kids ib)) ib (d.kids ia) := by
  obtain ⟨hqn, hakq⟩ := parent_spec hpa
  have hbkq : b ∈ d.kids q := (parent_spec hpb).2
  obtain ⟨hbα, hbrest, hrestα⟩ := nodup_split_facts (hkq ▸ hqnd)
  have hkq2' : d.kids q = (α' ++ [b]) ++ a :: γ := by
    rw [hkq]; simp
  obtain ⟨hapre, haγ, hγpre⟩ := nodup_split_facts (hkq2' ▸ hqnd)
  have haα : a ∉ α' := fun h => hapre (List.mem_append_left _ h)
  have haCa : a ∉ d.kids ia := fun h => hqia (hCap a h q hqn hakq)
  have haCb : a ∉ d.kids ib := fun h => hqib (hCbp a h q hqn hakq)
  have hbCa : b ∉ d.kids ia := fun h => hqia (hCap b h q hqn hbkq)
  have hbCb : b ∉ d.kids ib := fun h => hqib (hCbp b h q hqn hbkq)
  rw [spac_unfold_some_some hpa hpb,
    childrenSwap_step hiaib hian hCand hCap]
  set S2 := updateKids (updateKids d ib (d.kids ia)) ia [] with hS2
  have hS2q : S2.kids q = d.kids q := by simp [hS2, hqia, hqib]
  have hS2pb : S2.parent b = some q := by
    rw [hS2, parent_updateKids_iff (by simp [hiaib, hbCa]),
      parent_updateKids_iff (by simp [hbCa, hbCb])]
    exact hpb
  have hS2pa : S2.parent a = some q := by
    rw [hS2, parent_updateKids_iff (by simp [hiaib, haCa]),
      parent_updateKids_iff (by simp [haCa, haCb])]
    exact hpa
  rw [insertBefore_some_of_parent hS2pb hab q]
  have hrm3 : removeChild S2 q b = updateKids S2 q (α' ++ a :: γ) := by
    rw [removeChild, hS2q, hkq, erase_of_not_mem_left hbα,
      List.erase_cons_head]
  rw [hrm3]
  have hk3 : (updateKids S2 q (α' ++ a :: γ)).kids q = α' ++ a :: γ := by simp
  rw [hk3, insertBeforeIn_split haα, updateKids_updateKids_same]
  have hS3 : updateKids S2 q (α' ++ b :: a :: γ) = S2 := by
    rw [← hkq, ← hS2q]
    exact updateKids_self rfl
  rw [hS3]
  have hsib : d.nextSibling b = some a := by
    rw [nextSibling_of_parent hpb, hkq, nextAfter_eq_head? _ hbα]
    rfl
  have hS2nd : (S2.kids q).Nodup := by rw [hS2q]; exact hqnd
  rw [hsib, insertBefore_restore hS2pa hS2nd (Or.inr rfl)]
  have hdetach : ∀ c ∈ d.kids ib, ∀ m ∈ S2.nodes, c ∉ S2.kids m := by
    intro c hc m hm hmem
    have hm' : m ∈ d.nodes := by simpa [hS2] using hm
    by_cases hmia : m = ia
    · rw [show S2.kids m = [] from by rw [hmia]; simp [hS2]] at hmem
      cases hmem
    · by_cases hmib : m = ib
      · rw [show S2.kids m = d.kids ia from by
          rw [hmib]; simp [hS2, Ne.symm hiaib]] at hmem
        exact (Ne.symm hiaib) (hCap c hmem ib hibn hc)
      · rw [show S2.kids m = d.kids m from by simp [hS2, hmia, hmib]] at hmem
        exact hmib (hCbp c hc m hm' hmem)
  rw [appendContent_spec (d.kids ib) S2 ia hCbnd hdetach]
  have hS2ia : S2.kids ia = [] := by simp [hS2]
  rw [hS2ia, List.nil_append]
  refine Dom.ext' (by simp [hS2]) fun m => ?_
  by_cases hmia : m = ia
  · simp [hS2, hmia, hiaib, Ne.symm hiaib]
  · by_cases hmib : m = ib
    · simp [hS2, hmia, hmib, hiaib, Ne.symm hiaib]
    · simp [hS2, hmia, hmib]

theorem insertBefore_none_of_no_parent {d : Dom} {n : Nat}
    (h : d.parent n = none) (p : Nat) :
    d.insertBefore p n none = updateKids d p (d.kids p ++ [n]) := by
  simp [Dom.insertBefore, Dom.remove, h]

/-- One `swapParentsAndChildren(a, ia, b, ib)` where `a` is parentless and
`b` sits under `q2`: `b` is detached (becoming a root) and `a` takes `b`'s
old position; the inner child lists are exchanged. -/
theorem spac_a_root {d : Dom} {a ia b ib q2 : Nat} {α2 β2 : List Nat}
    (hab : a ≠ b) (hiaib : ia ≠ ib)
    (hq2ia : q2 ≠ ia) (hq2ib : q2 ≠ ib)
    (hian : ia ∈ d.nodes) (hibn : ib ∈ d.nodes)
    (hpa : d.parent a = none) (hpb : d.parent b = some q2)
    (hkq2 : d.kids q2 = α2 ++ b :: β2)
    (hq2nd : (d.kids q2).Nodup) (haq2 : a ∉ d.kids q2)
    (hCand : (d.kids ia).Nodup) (hCbnd : (d.kids ib).Nodup)
    (hCap : ∀ c ∈ d.kids ia, ∀ m ∈ d.nodes, c ∈ d.kids m → m = ia)
    (hCbp : ∀ c ∈ d.kids ib, ∀ m ∈ d.nodes, c ∈ d.kids m → m = ib) :
    d.swapParentsAndChildren a ia b ib =
      updateKids (updateKids (updateKids d ia (d.kids ib)) ib (d.kids ia)) q2
        (α2 ++ a :: β2) := by
  obtain ⟨hq2n, hbkq2⟩ := parent_spec hpb
  obtain ⟨hbα2, hbβ2, hβα2⟩ := nodup_split_facts (hkq2 ▸ hq2nd)
  have haCa : a ∉ d.kids ia := by
    intro h
    have hpar : d.parent a = some ia :=
      parent_eq_some hian h (fun m hm hmem => hCap a h m hm hmem)
    rw [hpa] at hpar
    cases hpar
  have haCb : a ∉ d.kids ib := by
    intro h
    have hpar : d.parent a = some ib :=
      parent_eq_some hibn h (fun m hm hmem => hCbp a h m hm hmem)
    rw [hpa] at hpar
    cases hpar
  have hbCa : b ∉ d.kids ia := fun h => hq2ia (hCap b h q2 hq2n hbkq2)
  have hbCb : b ∉ d.kids ib := fun h => hq2ib (hCbp b h q2 hq2n hbkq2)
  rw [spac_unfold_none_some hpa hpb,
    childrenSwap_step hiaib hian hCand hCap]
  set S2 := updateKids (updateKids d ib (d.kids ia)) ia [] with hS2
  have hS2q2 : S2.kids q2 = α2 ++ b :: β2 := by
    simp [hS2, hq2ia, hq2ib, hkq2]
  have hS2pb : S2.parent b = some q2 := by
    rw [hS2, parent_updateKids_iff (by simp [hiaib, hbCa]),
      parent_updateKids_iff (by simp [hbCa, hbCb])]
    exact hpb
  rw [remove_of_parent hS2pb]
  have hrm3 : removeChild S2 q2 b = updateKids S2 q2 (α2 ++ β2) := by
    rw [removeChild, hS2q2, erase_of_not_mem_left hbα2, List.erase_cons_head]
  rw [hrm3]
  set S3 := updateKids S2 q2 (α2 ++ β2) with hS3
  have hiff2 : a ∈ (α2 ++ β2) ↔ a ∈ S2.kids q2 := by
    apply iff_of_false
    · intro h
      apply haq2
      rw [hkq2]
      rcases List.mem_append.1 h with h | h
      · exact List.mem_append_left _ h
      · exact List.mem_append_right _ (List.mem_cons_of_mem _ h)
    · intro h
      rw [hS2q2, ← hkq2] at h
      exact haq2 h
  have hS3pa : S3.parent a = none := by
    rw [hS3, parent_updateKids_iff hiff2, hS2,
      parent_updateKids_iff (by simp [hiaib, haCa]),
      parent_updateKids_iff (by simp [haCa, haCb])]
    exact hpa
  have hsib : d.nextSibling b = β2.head? := by
    rw [nextSibling_of_parent hpb, hkq2, nextAfter_eq_head? β2 hbα2]
  have hstep4 : S3.insertBefore q2 a (d.nextSibling b) =
      updateKids S2 q2 (α2 ++ a :: β2) := by
    rw [hsib]
    cases hβ2 : β2 with
    | nil =>
      rw [List.head?_nil, insertBefore_none_of_no_parent hS3pa]
      have : S3.kids q2 = α2 ++ β2 := by simp [hS3]
      rw [this, hβ2, hS3, updateKids_updateKids_same]
      simp
    | cons s β2' =>
      have hsa : s ≠ a := by
        rintro rfl
        exact haq2 (by rw [hkq2, hβ2]
                       exact List.mem_append_right _
                         (List.mem_cons_of_mem _ (List.mem_cons_self s β2')))
      rw [List.head?_cons, insertBefore_some_of_no_parent hS3pa hsa]
      have : S3.kids q2 = α2 ++ s :: β2' := by simp [hS3, hβ2]
      rw [this, insertBeforeIn_split (hβα2 s (by rw [hβ2]; exact List.mem_cons_self s β2')),
        hS3, updateKids_updateKids_same]
  rw [hstep4]
  set S4 := updateKids S2 q2 (α2 ++ a :: β2) with hS4
  have hdetach : ∀ c ∈ d.kids ib, ∀ m ∈ S4.nodes, c ∉ S4.kids m := by
    intro c hc m hm hmem
    have hm' : m ∈ d.nodes := by simpa [hS4, hS2] using hm
    by_cases hmq2 : m = q2
    · rw [show S4.kids m = α2 ++ a :: β2 from by rw [hmq2]; simp [hS4]] at hmem
      rcases List.mem_append.1 hmem with h | h
      · exact hq2ib (hCbp c hc q2 hq2n (by rw [hkq2]; exact List.mem_append_left _ h))
      · rcases List.mem_cons.1 h with h | h
        · exact haCb (h ▸ hc)
        · exact hq2ib (hCbp c hc q2 hq2n
            (by rw [hkq2]
                exact List.mem_append_right _ (List.mem_cons_of_mem _ h)))
    · by_cases hmia : m = ia
      · rw [show S4.kids m = [] from by
          rw [hmia]; simp [hS4, hS2, Ne.symm hq2ia]] at hmem
        cases hmem
      · by_cases hmib : m = ib
        · rw [show S4.kids m = d.kids ia from by
            rw [hmib]; simp [hS4, hS2, Ne.symm hq2ib, Ne.symm hiaib]] at hmem
          exact (Ne.symm hiaib) (hCap c hmem ib hibn hc)
        · rw [show S4.kids m = d.kids m from by
            simp [hS4, hS2, hmq2, hmia, hmib]] at hmem
          exact hmib (hCbp c hc m hm' hmem)
  rw [appendContent_spec (d.kids ib) S4 ia hCbnd hdetach]
  have hS4ia : S4.kids ia = [] := by simp [hS4, hS2, Ne.symm hq2ia]
  rw [hS4ia, List.nil_append]
  refine Dom.ext' (by simp [hS4, hS2]) fun m => ?_
  by_cases hmia : m = ia
  · simp [hS4, hS2, hmia, Ne.symm hq2ia, hq2ia, hiaib, Ne.symm hiaib]
  · by_cases hmib : m = ib
    · simp [hS4, hS2, hmia, hmib, Ne.symm hq2ib, hq2ib, hiaib, Ne.symm hiaib]
    · by_cases hmq2 : m = q2
      · simp [hS4, hS2, hmia, hmib, hmq2, hq2ia, hq2ib]
      · simp [hS4, hS2, hmia, hmib, hmq2]

/-- One `swapParentsAndChildren(a, ia, b, ib)` where `a` sits under `q1`
and `b` is parentless: `b` takes `a`'s position and `a` is detached; the
inner child lists are exchanged. -/
theorem spac_b_root {d : Dom} {a ia b ib q1 : Nat} {α1 β1 : List Nat}
    (hab : a ≠ b) (hiaib : ia ≠ ib)
    (hq1ia : q1 ≠ ia) (hq1ib : q1 ≠ ib)
    (hian : ia ∈ d.nodes) (hibn : ib ∈ d.nodes)
    (hpa : d.parent a = some q1) (hpb : d.parent b = none)
    (hkq1 : d.kids q1 = α1 ++ a :: β1)
    (hq1nd : (d.kids q1).Nodup)
    (hCand : (d.kids ia).Nodup) (hCbnd : (d.kids ib).Nodup)
    (hCap : ∀ c ∈ d.kids ia, ∀ m ∈ d.nodes, c ∈ d.kids m → m = ia)
    (hCbp : ∀ c ∈ d.kids ib, ∀ m ∈ d.nodes, c ∈ d.kids m → m = ib) :
    d.swapParentsAndChildren a ia b ib =
      updateKids (updateKids (updateKids d ia (d.kids ib)) ib (d.kids ia)) q1
        (α1 ++ b :: β1) := by
  obtain ⟨hq1n, hakq1⟩ := parent_spec hpa
  obtain ⟨haα1, haβ1, hβα1⟩ := nodup_split_facts (hkq1 ▸ hq1nd)
  have haCa : a ∉ d.kids ia := fun h => hq1ia (hCap a h q1 hq1n hakq1)
  have haCb : a ∉ d.kids ib := fun h => hq1ib (hCbp a h q1 hq1n hakq1)
  have hbCa : b ∉ d.kids ia := by
    intro h
    have hpar : d.parent b = some ia :=
      parent_eq_some hian h (fun m hm hmem => hCap b h m hm hmem)
    rw [hpb] at hpar
    cases hpar
  have hbCb : b ∉ d.kids ib := by
    intro h
    have hpar : d.parent b = some ib :=
      parent_eq_some hibn h (fun m hm hmem => hCbp b h m hm hmem)
    rw [hpb] at hpar
    cases hpar
  rw [spac_unfold_some_none hpa hpb,
    childrenSwap_step hiaib hian hCand hCap]
  set S2 := updateKids (updateKids d ib (d.kids ia)) ia [] with hS2
  have hS2q1 : S2.kids q1 = α1 ++ a :: β1 := by
    simp [hS2, hq1ia, hq1ib, hkq1]
  have hS2pb : S2.parent b = none := by
    rw [hS2, parent_updateKids_iff (by simp [hiaib, hbCa]),
      parent_updateKids_iff (by simp [hbCa, hbCb])]
    exact hpb
  rw [insertBefore_some_of_no_parent hS2pb hab q1, hS2q1,
    insertBeforeIn_split haα1]
  set S3 := updateKids S2 q1 (α1 ++ b :: a :: β1) with hS3
  have hS3pa : S3.parent a = some q1 := by
    rw [hS3, parent_updateKids_iff
      (iff_of_true (by simp) (by rw [hS2q1]; simp)), hS2,
      parent_updateKids_iff (by simp [hiaib, haCa]),
      parent_updateKids_iff (by simp [haCa, haCb])]
    exact hpa
  rw [remove_of_parent hS3pa]
  have hrm4 : removeChild S3 q1 a = updateKids S2 q1 (α1 ++ b :: β1) := by
    rw [removeChild]
    have : S3.kids q1 = α1 ++ b :: a :: β1 := by simp [hS3]
    rw [this, erase_of_not_mem_left haα1,
      List.erase_cons_tail (by simpa using (Ne.symm hab)),
      List.erase_cons_head, hS3, updateKids_updateKids_same]
  rw [hrm4]
  set S4 := updateKids S2 q1 (α1 ++ b :: β1) with hS4
  have hdetach : ∀ c ∈ d.kids ib, ∀ m ∈ S4.nodes, c ∉ S4.kids m := by
    intro c hc m hm hmem
    have hm' : m ∈ d.nodes := by simpa [hS4, hS2] using hm
    by_cases hmq1 : m = q1
    · rw [show S4.kids m = α1 ++ b :: β1 from by rw [hmq1]; simp [hS4]] at hmem
      rcases List.mem_append.1 hmem with h | h
      · exact hq1ib (hCbp c hc q1 hq1n (by rw [hkq1]; exact List.mem_append_left _ h))
      · rcases List.mem_cons.1 h with h | h
        · exact hbCb (h ▸ hc)
        · exact hq1ib (hCbp c hc q1 hq1n
            (by rw [hkq1]
                exact List.mem_append_right _ (List.mem_cons_of_mem _ h)))
    · by_cases hmia : m = ia
      · rw [show S4.kids m = [] from by
          rw [hmia]; simp [hS4, hS2, Ne.symm hq1ia]] at hmem
        cases hmem
      · by_cases hmib : m = ib
        · rw [show S4.kids m = d.kids ia from by
            rw [hmib]; simp [hS4, hS2, Ne.symm hq1ib, Ne.symm hiaib]] at hmem
          exact (Ne.symm hiaib) (hCap c hmem ib hibn hc)
        · rw [show S4.kids m = d.kids m from by
            simp [hS4, hS2, hmq1, hmia, hmib]] at hmem
          exact hmib (hCbp c hc m hm' hmem)
  rw [appendContent_spec (d.kids ib) S4 ia hCbnd hdetach]
  have hS4ia : S4.kids ia = [] := by simp [hS4, hS2, Ne.symm hq1ia]
  rw [hS4ia, List.nil_append]
  refine Dom.ext' (by simp [hS4, hS2]) fun m => ?_
  by_cases hmia : m = ia
  · simp [hS4, hS2, hmia, Ne.symm hq1ia, hq1ia, hiaib, Ne.symm hiaib]
  · by_cases hmib : m = ib
    · simp [hS4, hS2, hmia, hmib, Ne.symm hq1ib, hq1ib, hiaib, Ne.symm hiaib]
    · by_cases hmq1 : m = q1
      · simp [hS4, hS2, hmia, hmib, hmq1, hq1ia, hq1ib]
      · simp [hS4, hS2, hmia, hmib, hmq1]

/-- One `swapParentsAndChildren(a, ia, b, ib)` with both outer nodes
parentless: only the inner child lists are exchanged. -/
theorem spac_both_roots {d : Dom} {a ia b ib : Nat}
    (hiaib : ia ≠ ib)
    (hian : ia ∈ d.nodes) (hibn : ib ∈ d.nodes)
    (hpa : d.parent a = none) (hpb : d.parent b = none)
    (hCand : (d.kids ia).Nodup) (hCbnd : (d.kids ib).Nodup)
    (hCap : ∀ c ∈ d.kids ia, ∀ m ∈ d.nodes, c ∈ d.kids m → m = ia)
    (hCbp : ∀ c ∈ d.kids ib, ∀ m ∈ d.nodes, c ∈ d.kids m → m = ib) :
    d.swapParentsAndChildren a ia b ib =
      updateKids (updateKids d ia (d.kids ib)) ib (d.kids ia) := by
  have haCa : a ∉ d.kids ia := by
    intro h
    have hpar : d.parent a = some ia :=
      parent_eq_some hian h (fun m hm hmem => hCap a h m hm hmem)
    rw [hpa] at hpar
    cases hpar
  have haCb : a ∉ d.kids ib := by
    intro h
    have hpar : d.parent a = some ib :=
      parent_eq_some hibn h (fun m hm hmem => hCbp a h m hm hmem)
    rw [hpa] at hpar
    cases hpar
  have hbCa : b ∉ d.kids ia := by
    intro h
    have hpar : d.parent b = some ia :=
      parent_eq_some hian h (fun m hm hmem => hCap b h m hm hmem)
    rw [hpb] at hpar
    cases hpar
  have hbCb : b ∉ d.kids ib := by
    intro h
    have hpar : d.parent b = some ib :=
      parent_eq_some hibn h (fun m hm hmem => hCbp b h m hm hmem)
    rw [hpb] at hpar
    cases hpar
  rw [spac_unfold_none_none hpa hpb,
    childrenSwap_step hiaib hian hCand hCap]
  set S2 := updateKids (updateKids d ib (d.kids ia)) ia [] with hS2
  have hS2pb : S2.parent b = none := by
    rw [hS2, parent_updateKids_iff (by simp [hiaib, hbCa]),
      parent_updateKids_iff (by simp [hbCa, hbCb])]
    exact hpb
  have hS2pa : S2.parent a = none := by
    rw [hS2, parent_updateKids_iff (by simp [hiaib, haCa]),
      parent_updateKids_iff (by simp [haCa, haCb])]
    exact hpa
  rw [remove_of_no_parent hS2pb, remove_of_no_parent hS2pa]
  have hdetach : ∀ c ∈ d.kids ib, ∀ m ∈ S2.nodes, c ∉ S2.kids m := by
    intro c hc m hm hmem
    have hm' : m ∈ d.nodes := by simpa [hS2] using hm
    by_cases hmia : m = ia
    · rw [show S2.kids m = [] from by rw [hmia]; simp [hS2]] at hmem
      cases hmem
    · by_cases hmib : m = ib
      · rw [show S2.kids m = d.kids ia from by
          rw [hmib]; simp [hS2, Ne.symm hiaib]] at hmem
        exact (Ne.symm hiaib) (hCap c hmem ib hibn hc)
      · rw [show S2.kids m = d.kids m from by simp [hS2, hmia, hmib]] at hmem
        exact hmib (hCbp c hc m hm' hmem)
  rw [appendContent_spec (d.kids ib) S2 ia hCbnd hdetach]
  have hS2ia : S2.kids ia = [] := by simp [hS2]
  rw [hS2ia, List.nil_append]
  refine Dom.ext' (by simp [hS2]) fun m => ?_
  by_cases hmia : m = ia
  · simp [hS2, hmia, hiaib, Ne.symm hiaib]
  · by_cases hmib : m = ib
    · simp [hS2, hmia, hmib, hiaib, Ne.symm hiaib]
    · simp [hS2, hmia, hmib]

theorem nodup_replace {α' β : List Nat} {a b : Nat}
    (h : (α' ++ a :: β).Nodup) (hbα : b ∉ α') (hbβ : b ∉ β) :
    (α' ++ b :: β).Nodup := by
  have h1 : List.Perm (α' ++ a :: β) (a :: (α' ++ β)) := List.perm_middle
  have h2 : List.Perm (α' ++ b :: β) (b :: (α' ++ β)) := List.perm_middle
  refine h2.nodup_iff.2 (List.nodup_cons.2 ⟨?_, ?_⟩)
  · intro hm
    rcases List.mem_append.1 hm with hm | hm
    · exact hbα hm
    · exact hbβ hm
  · exact (List.nodup_cons.1 (h1.nodup_iff.1 h)).2

theorem perm_exchange {α' β γ : List Nat} {a b : Nat} :
    List.Perm (α' ++ a :: β ++ b :: γ) (α' ++ b :: β ++ a :: γ) := by
  rw [List.append_assoc, List.append_assoc, List.cons_append,
    List.cons_append]
  apply List.Perm.append_left α'
  have p1 : List.Perm (a :: (β ++ b :: γ)) (a :: (b :: (β ++ γ))) :=
    List.Perm.cons a List.perm_middle
  have p2 : List.Perm (a :: (b :: (β ++ γ))) (b :: (a :: (β ++ γ))) :=
    List.Perm.swap b a _
  have p3 : List.Perm (b :: (a :: (β ++ γ))) (b :: (β ++ a :: γ)) :=
    List.Perm.cons b List.perm_middle.symm
  exact (p1.trans p2).trans p3

theorem nodup_exchange {α' β γ : List Nat} {a b : Nat}
    (h : (α' ++ a :: β ++ b :: γ).Nodup) :
    (α' ++ b :: β ++ a :: γ).Nodup :=
  perm_exchange.nodup_iff.1 h

/-- Double swap, different parents: swapping two chains that sit under
distinct parents and then swapping them again restores the store. -/
theorem roundtrip_diff {d : Dom} {a ia b ib q1 q2 : Nat}
    {α1 β1 α2 β2 : List Nat}
    (hwf : d.WF)
    (hab : a ≠ b) (hiaib : ia ≠ ib)
    (hq1ia : q1 ≠ ia) (hq1ib : q1 ≠ ib) (hq2ia : q2 ≠ ia) (hq2ib : q2 ≠ ib)
    (hq12 : q1 ≠ q2)
    (hian : ia ∈ d.nodes) (hibn : ib ∈ d.nodes)
    (hpa : d.parent a = some q1) (hpb : d.parent b = some q2)
    (hkq1 : d.kids q1 = α1 ++ a :: β1) (hkq2 : d.kids q2 = α2 ++ b :: β2) :
    (d.swapParentsAndChildren a ia b ib).swapParentsAndChildren a ia b ib
      = d := by
  obtain ⟨hnodup, huniq, hchild⟩ := hwf
  obtain ⟨hq1n, hakq1⟩ := parent_spec hpa
  obtain ⟨hq2n, hbkq2⟩ := parent_spec hpb
  have hq1nd := hnodup q1 hq1n
  have hq2nd := hnodup q2 hq2n
  have hCand := hnodup ia hian
  have hCbnd := hnodup ib hibn
  have hCap : ∀ c ∈ d.kids ia, ∀ m ∈ d.nodes, c ∈ d.kids m → m = ia :=
    fun c hc m hm hcm => huniq m hm ia hian c hcm hc
  have hCbp : ∀ c ∈ d.kids ib, ∀ m ∈ d.nodes, c ∈ d.kids m → m = ib :=
    fun c hc m hm hcm => huniq m hm ib hibn c hcm hc
  have haq2 : a ∉ d.kids q2 := fun h => hq12 (huniq q1 hq1n q2 hq2n a hakq1 h)
  have hbq1 : b ∉ d.kids q1 := fun h => hq12 (huniq q1 hq1n q2 hq2n b h hbkq2)
  obtain ⟨haα1, haβ1, hβα1⟩ := nodup_split_facts (hkq1 ▸ hq1nd)
  obtain ⟨hbα2, hbβ2, hβα2⟩ := nodup_split_facts (hkq2 ▸ hq2nd)
  have hbα1 : b ∉ α1 := fun h => hbq1 (by rw [hkq1]; exact List.mem_append_left _ h)
  have hbβ1 : b ∉ β1 := fun h => hbq1 (by
    rw [hkq1]; exact List.mem_append_right _ (List.mem_cons_of_mem _ h))
  have haα2 : a ∉ α2 := fun h => haq2 (by rw [hkq2]; exact List.mem_append_left _ h)
  have haβ2 : a ∉ β2 := fun h => haq2 (by
    rw [hkq2]; exact List.mem_append_right _ (List.mem_cons_of_mem _ h))
  have haCa : a ∉ d.kids ia := fun h => hq1ia (hCap a h q1 hq1n hakq1)
  have haCb : a ∉ d.kids ib := fun h => hq1ib (hCbp a h q1 hq1n hakq1)
  have hbCa : b ∉ d.kids ia := fun h => hq2ia (hCap b h q2 hq2n hbkq2)
  have hbCb : b ∉ d.kids ib := fun h => hq2ib (hCbp b h q2 hq2n hbkq2)
  rw [spac_diff_parents hab hiaib hq1ia hq1ib hq2ia hq2ib hq12 hian hibn
    hpa hpb hkq1 hkq2 hq1nd hq2nd haq2 hCand hCbnd hCap hCbp]
  set D1 := updateKids (updateKids (updateKids (updateKids d ia (d.kids ib))
    ib (d.kids ia)) q1 (α1 ++ b :: β1)) q2 (α2 ++ a :: β2) with hD1
  have hD1nodes : D1.nodes = d.nodes := by simp [hD1]
  have hD1ia : D1.kids ia = d.kids ib := by
    simp [hD1, Ne.symm hq1ia, Ne.symm hq2ia, hiaib, Ne.symm hiaib]
  have hD1ib : D1.kids ib = d.kids ia := by
    simp [hD1, Ne.symm hq1ib, Ne.symm hq2ib, hiaib, Ne.symm hiaib]
  have hD1q1 : D1.kids q1 = α1 ++ b :: β1 := by
    simp [hD1, hq12, Ne.symm hq12]
  have hD1q2 : D1.kids q2 = α2 ++ a :: β2 := by simp [hD1]
  have hD1other : ∀ m, m ≠ ia → m ≠ ib → m ≠ q1 → m ≠ q2 →
      D1.kids m = d.kids m := by
    intro m h1 h2 h3 h4
    simp [hD1, h1, h2, h3, h4]
  have hian' : ia ∈ D1.nodes := by rwa [hD1nodes]
  have hibn' : ib ∈ D1.nodes := by rwa [hD1nodes]
  have hpa' : D1.parent a = some q2 := by
    apply parent_eq_some (by rwa [hD1nodes])
      (by rw [hD1q2]; exact List.mem_append_right _ (List.mem_cons_self a β2))
    intro m hm hcm
    rw [hD1nodes] at hm
    by_cases h1 : m = q2
    · exact h1
    · by_cases h2 : m = q1
      · rw [h2, hD1q1] at hcm
        rcases List.mem_append.1 hcm with h | h
        · exact absurd h haα1
        · rcases List.mem_cons.1 h with h | h
          · exact absurd h hab
          · exact absurd h haβ1
      · by_cases h3 : m = ia
        · rw [h3, hD1ia] at hcm
          exact absurd hcm haCb
        · by_cases h4 : m = ib
          · rw [h4, hD1ib] at hcm
            exact absurd hcm haCa
          · rw [hD1other m h3 h4 h2 h1] at hcm
            exact absurd (huniq m hm q1 hq1n a hcm hakq1) h2
  have hpb' : D1.parent b = some q1 := by
    apply parent_eq_some (by rwa [hD1nodes])
      (by rw [hD1q1]; exact List.mem_append_right _ (List.mem_cons_self b β1))
    intro m hm hcm
    rw [hD1nodes] at hm
    by_cases h1 : m = q1
    · exact h1
    · by_cases h2 : m = q2
      · rw [h2, hD1q2] at hcm
        rcases List.mem_append.1 hcm with h | h
        · exact absurd h hbα2
        · rcases List.mem_cons.1 h with h | h
          · exact absurd h.symm hab
          · exact absurd h hbβ2
      · by_cases h3 : m = ia
        · rw [h3, hD1ia] at hcm
          exact absurd hcm hbCb
        · by_cases h4 : m = ib
          · rw [h4, hD1ib] at hcm
            exact absurd hcm hbCa
          · rw [hD1other m h3 h4 h1 h2] at hcm
            exact absurd (huniq m hm q2 hq2n b hcm hbkq2) h2
  have hq1nd' : (D1.kids q1).Nodup := by
    rw [hD1q1]; exact nodup_replace (hkq1 ▸ hq1nd) hbα1 hbβ1
  have hq2nd' : (D1.kids q2).Nodup := by
    rw [hD1q2]; exact nodup_replace (hkq2 ▸ hq2nd) haα2 haβ2
  have hCand' : (D1.kids ia).Nodup := by rw [hD1ia]; exact hCbnd
  have hCbnd' : (D1.kids ib).Nodup := by rw [hD1ib]; exact hCand
  have haq2' : a ∉ D1.kids q1 := by
    rw [hD1q1]
    intro h
    rcases List.mem_append.1 h with h | h
    · exact haα1 h
    · rcases List.mem_cons.1 h with h | h
      · exact hab h
      · exact haβ1 h
  have hCap' : ∀ c ∈ D1.kids ia, ∀ m ∈ D1.nodes, c ∈ D1.kids m → m = ia := by
    intro c hc m hm hcm
    rw [hD1ia] at hc
    rw [hD1nodes] at hm
    by_cases h3 : m = ia
    · exact h3
    · by_cases h4 : m = ib
      · rw [h4, hD1ib] at hcm
        exact absurd (huniq ia hian ib hibn c hcm hc) hiaib
      · by_cases h1 : m = q1
        · rw [h1, hD1q1] at hcm
          rcases List.mem_append.1 hcm with h | h
          · exact absurd (hCbp c hc q1 hq1n
              (by rw [hkq1]; exact List.mem_append_left _ h)) hq1ib
          · rcases List.mem_cons.1 h with h | h
            · exact absurd (h ▸ hc) hbCb
            · exact absurd (hCbp c hc q1 hq1n
                (by rw [hkq1]
                    exact List.mem_append_right _ (List.mem_cons_of_mem _ h)))
                hq1ib
        · by_cases h2 : m = q2
          · rw [h2, hD1q2] at hcm
            rcases List.mem_append.1 hcm with h | h
            · exact absurd (hCbp c hc q2 hq2n
                (by rw [hkq2]; exact List.mem_append_left _ h)) hq2ib
            · rcases List.mem_cons.1 h with h | h
              · exact absurd (h ▸ hc) haCb
              · exact absurd (hCbp c hc q2 hq2n
                  (by rw [hkq2]
                      exact List.mem_append_right _ (List.mem_cons_of_mem _ h)))
                  hq2ib
          · rw [hD1other m h3 h4 h1 h2] at hcm
            exact absurd (hCbp c hc m hm hcm) h4
  have hCbp' : ∀ c ∈ D1.kids ib, ∀ m ∈ D1.nodes, c ∈ D1.kids m → m = ib := by
    intro c hc m hm hcm
    rw [hD1ib] at hc
    rw [hD1nodes] at hm
    by_cases h4 : m = ib
    · exact h4
    · by_cases h3 : m = ia
      · rw [h3, hD1ia] at hcm
        exact absurd (huniq ia hian ib hibn c hc hcm).symm (Ne.symm hiaib)
      · by_cases h1 : m = q1
        · rw [h1, hD1q1] at hcm
          rcases List.mem_append.1 hcm with h | h
          · exact absurd (hCap c hc q1 hq1n
              (by rw [hkq1]; exact List.mem_append_left _ h)) hq1ia
          · rcases List.mem_cons.1 h with h | h
            · exact absurd (h ▸ hc) hbCa
            · exact absurd (hCap c hc q1 hq1n
                (by rw [hkq1]
                    exact List.mem_append_right _ (List.mem_cons_of_mem _ h)))
                hq1ia
        · by_cases h2 : m = q2
          · rw [h2, hD1q2] at hcm
            rcases List.mem_append.1 hcm with h | h
            · exact absurd (hCap c hc q2 hq2n
                (by rw [hkq2]; exact List.mem_append_left _ h)) hq2ia
            · rcases List.mem_cons.1 h with h | h
              · exact absurd (h ▸ hc) haCa
              · exact absurd (hCap c hc q2 hq2n
                  (by rw [hkq2]
                      exact List.mem_append_right _ (List.mem_cons_of_mem _ h)))
                  hq2ia
          · rw [hD1other m h3 h4 h1 h2] at hcm
            exact absurd (hCap c hc m hm hcm) h3
  rw [spac_diff_parents hab hiaib hq2ia hq2ib hq1ia hq1ib (Ne.symm hq12)
    hian' hibn' hpa' hpb' hD1q2 hD1q1 hq2nd' hq1nd' haq2' hCand' hCbnd'
    hCap' hCbp']
  refine Dom.ext' (by simp [hD1]) fun m => ?_
  simp only [updateKids_kids]
  by_cases hmq1 : m = q1
  · rw [if_pos hmq1, hmq1, hkq1]
  · rw [if_neg hmq1]
    by_cases hmq2 : m = q2
    · rw [if_pos hmq2, hmq2, hkq2]
    · rw [if_neg hmq2]
      by_cases hmib : m = ib
      · rw [if_pos hmib, hD1ia, hmib]
      · rw [if_neg hmib]
        by_cases hmia : m = ia
        · rw [if_pos hmia, hD1ib, hmia]
        · rw [if_neg hmia]
          exact hD1other m hmia hmib hmq1 hmq2

/-- Double swap, both outer nodes parentless: two applications of
`swapParentsAndChildren` restore the store. -/
theorem roundtrip_both_roots {d : Dom} {a ia b ib : Nat}
    (hwf : d.WF) (hiaib : ia ≠ ib)
    (hian : ia ∈ d.nodes) (hibn : ib ∈ d.nodes)
    (hpa : d.parent a = none) (hpb : d.parent b = none) :
    (d.swapParentsAndChildren a ia b ib).swapParentsAndChildren a ia b ib
      = d := by
  obtain ⟨hnodup, huniq, hchild⟩ := hwf
  have hCand := hnodup ia hian
  have hCbnd := hnodup ib hibn
  have hCap : ∀ c ∈ d.kids ia, ∀ m ∈ d.nodes, c ∈ d.kids m → m = ia :=
    fun c hc m hm hcm => huniq m hm ia hian c hcm hc
  have hCbp : ∀ c ∈ d.kids ib, ∀ m ∈ d.nodes, c ∈ d.kids m → m = ib :=
    fun c hc m hm hcm => huniq m hm ib hibn c hcm hc
  rw [spac_both_roots hiaib hian hibn hpa hpb hCand hCbnd hCap hCbp]
  set D1 := updateKids (updateKids d ia (d.kids ib)) ib (d.kids ia) with hD1
  have hD1nodes : D1.nodes = d.nodes := by simp [hD1]
  have hD1ia : D1.kids ia = d.kids ib := by simp [hD1, hiaib]
  have hD1ib : D1.kids ib = d.kids ia := by simp [hD1]
  have hD1other : ∀ m, m ≠ ia → m ≠ ib → D1.kids m = d.kids m := by
    intro m h1 h2
    simp [hD1, h1, h2]
  have hnonea := parent_none_spec hpa
  have hnoneb := parent_none_spec hpb
  have hpa' : D1.parent a = none := by
    apply parent_eq_none
    intro m hm
    rw [hD1nodes] at hm
    by_cases h1 : m = ia
    · rw [h1, hD1ia]; exact hnonea ib hibn
    · by_cases h2 : m = ib
      · rw [h2, hD1ib]; exact hnonea ia hian
      · rw [hD1other m h1 h2]; exact hnonea m hm
  have hpb' : D1.parent b = none := by
    apply parent_eq_none
    intro m hm
    rw [hD1nodes] at hm
    by_cases h1 : m = ia
    · rw [h1, hD1ia]; exact hnoneb ib hibn
    · by_cases h2 : m = ib
      · rw [h2, hD1ib]; exact hnoneb ia hian
      · rw [hD1other m h1 h2]; exact hnoneb m hm
  have hian' : ia ∈ D1.nodes := by rwa [hD1nodes]
  have hibn' : ib ∈ D1.nodes := by rwa [hD1nodes]
  have hCand' : (D1.kids ia).Nodup := by rw [hD1ia]; exact hCbnd
  have hCbnd' : (D1.kids ib).Nodup := by rw [hD1ib]; exact hCand
  have hCap' : ∀ c ∈ D1.kids ia, ∀ m ∈ D1.nodes, c ∈ D1.kids m → m = ia := by
    intro c hc m hm hcm
    rw [hD1ia] at hc
    rw [hD1nodes] at hm
    by_cases h3 : m = ia
    · exact h3
    · by_cases h4 : m = ib
      · rw [h4, hD1ib] at hcm
        exact absurd (huniq ia hian ib hibn c hcm hc) hiaib
      · rw [hD1other m h3 h4] at hcm
        exact absurd (huniq m hm ib hibn c hcm hc) h4
  have hCbp' : ∀ c ∈ D1.kids ib, ∀ m ∈ D1.nodes, c ∈ D1.kids m → m = ib := by
    intro c hc m hm hcm
    rw [hD1ib] at hc
    rw [hD1nodes] at hm
    by_cases h4 : m = ib
    · exact h4
    · by_cases h3 : m = ia
      · rw [h3, hD1ia] at hcm
        exact absurd (huniq ia hian ib hibn c hc hcm) hiaib
      · rw [hD1other m h3 h4] at hcm
        exact absurd (huniq m hm ia hian c hcm hc) h3
  rw [spac_both_roots hiaib hian' hibn' hpa' hpb' hCand' hCbnd' hCap' hCbp']
  refine Dom.ext' (by simp [hD1]) fun m => ?_
  simp only [updateKids_kids]
  by_cases hmib : m = ib
  · rw [if_pos hmib, hD1ia, hmib]
  · rw [if_neg hmib]
    by_cases hmia : m = ia
    · rw [if_pos hmia, hD1ib, hmia]
    · rw [if_neg hmia]
      exact hD1other m hmia hmib

/-- Double swap, same parent with the second outer node immediately before
the first: two applications of `swapParentsAndChildren` restore the store. -/
theorem roundtrip_same_adjacent {d : Dom} {a ia b ib q : Nat}
    {α' γ : List Nat}
    (hwf : d.WF)
    (hab : a ≠ b) (hiaib : ia ≠ ib)
    (hqia : q ≠ ia) (hqib : q ≠ ib)
    (hian : ia ∈ d.nodes) (hibn : ib ∈ d.nodes)
    (hpa : d.parent a = some q) (hpb : d.parent b = some q)
    (hkq : d.kids q = α' ++ b :: a :: γ) :
    (d.swapParentsAndChildren a ia b ib).swapParentsAndChildren a ia b ib
      = d := by
  obtain ⟨hnodup, huniq, hchild⟩ := hwf
  obtain ⟨hqn, hakq⟩ := parent_spec hpa
  have hbkq : b ∈ d.kids q := (parent_spec hpb).2
  have hqnd := hnodup q hqn
  have hCand := hnodup ia hian
  have hCbnd := hnodup ib hibn
  have hCap : ∀ c ∈ d.kids ia, ∀ m ∈ d.nodes, c ∈ d.kids m → m = ia :=
    fun c hc m hm hcm => huniq m hm ia hian c hcm hc
  have hCbp : ∀ c ∈ d.kids ib, ∀ m ∈ d.nodes, c ∈ d.kids m → m = ib :=
    fun c hc m hm hcm => huniq m hm ib hibn c hcm hc
  rw [spac_same_adjacent hab hiaib hqia hqib hian hibn hpa hpb hkq hqnd
    hCand hCbnd hCap hCbp]
  set D1 := updateKids (updateKids d ia (d.kids ib)) ib (d.kids ia) with hD1
  have hD1nodes : D1.nodes = d.nodes := by simp [hD1]
  have hD1ia : D1.kids ia = d.kids ib := by simp [hD1, hiaib]
  have hD1ib : D1.kids ib = d.kids ia := by simp [hD1]
  have hD1other : ∀ m, m ≠ ia → m ≠ ib → D1.kids m = d.kids m := by
    intro m h1 h2
    simp [hD1, h1, h2]
  have hD1q : D1.kids q = α' ++ b :: a :: γ := by
    rw [hD1other q hqia hqib]; exact hkq
  have haCa : a ∉ d.kids ia := fun h => hqia (huniq q hqn ia hian a hakq h)
  have haCb : a ∉ d.kids ib := fun h => hqib (huniq q hqn ib hibn a hakq h)
  have hbCa : b ∉ d.kids ia := fun h => hqia (huniq q hqn ia hian b hbkq h)
  have hbCb : b ∉ d.kids ib := fun h => hqib (huniq q hqn ib hibn b hbkq h)
  have hian' : ia ∈ D1.nodes := by rwa [hD1nodes]
  have hibn' : ib ∈ D1.nodes := by rwa [hD1nodes]
  have hpa' : D1.parent a = some q := by
    apply parent_eq_some (by rwa [hD1nodes]) (by rw [hD1q]; rw [hkq] at hakq; exact hakq)
    intro m hm hcm
    rw [hD1nodes] at hm
    by_cases h3 : m = ia
    · rw [h3, hD1ia] at hcm; exact absurd hcm haCb
    · by_cases h4 : m = ib
      · rw [h4, hD1ib] at hcm; exact absurd hcm haCa
      · by_cases h1 : m = q
        · exact h1
        · rw [hD1other m h3 h4] at hcm
          exact huniq m hm q hqn a hcm hakq
  have hpb' : D1.parent b = some q := by
    apply parent_eq_some (by rwa [hD1nodes]) (by rw [hD1q]; rw [hkq] at hbkq; exact hbkq)
    intro m hm hcm
    rw [hD1nodes] at hm
    by_cases h3 : m = ia
    · rw [h3, hD1ia] at hcm; exact absurd hcm hbCb
    · by_cases h4 : m = ib
      · rw [h4, hD1ib] at hcm; exact absurd hcm hbCa
      · by_cases h1 : m = q
        · exact h1
        · rw [hD1other m h3 h4] at hcm
          exact huniq m hm q hqn b hcm hbkq
  have hqnd' : (D1.kids q).Nodup := by rw [hD1q, ← hkq]; exact hqnd
  have hCand' : (D1.kids ia).Nodup := by rw [hD1ia]; exact hCbnd
  have hCbnd' : (D1.kids ib).Nodup := by rw [hD1ib]; exact hCand
  have hCap' : ∀ c ∈ D1.kids ia, ∀ m ∈ D1.nodes, c ∈ D1.kids m → m = ia := by
    intro c hc m hm hcm
    rw [hD1ia] at hc
    rw [hD1nodes] at hm
    by_cases h3 : m = ia
    · exact h3
    · by_cases h4 : m = ib
      · rw [h4, hD1ib] at hcm
        exact absurd (huniq ia hian ib hibn c hcm hc) hiaib
      · rw [hD1other m h3 h4] at hcm
        exact absurd (huniq m hm ib hibn c hcm hc) h4
  have hCbp' : ∀ c ∈ D1.kids ib, ∀ m ∈ D1.nodes, c ∈ D1.kids m → m = ib := by
    intro c hc m hm hcm
    rw [hD1ib] at hc
    rw [hD1nodes] at hm
    by_cases h4 : m = ib
    · exact h4
    · by_cases h3 : m = ia
      · rw [h3, hD1ia] at hcm
        exact absurd (huniq ia hian ib hibn c hc hcm) hiaib
      · rw [hD1other m h3 h4] at hcm
        exact absurd (huniq m hm ia hian c hcm hc) h3
  rw [spac_same_adjacent hab hiaib hqia hqib hian' hibn' hpa' hpb' hD1q
    hqnd' hCand' hCbnd' hCap' hCbp']
  refine Dom.ext' (by simp [hD1]) fun m => ?_
  simp only [updateKids_kids]
  by_cases hmib : m = ib
  · rw [if_pos hmib, hD1ia, hmib]
  · rw [if_neg hmib]
    by_cases hmia : m = ia
    · rw [if_pos hmia, hD1ib, hmia]
    · rw [if_neg hmia]
      exact hD1other m hmia hmib

/-- Double swap, first outer node parentless and second parented: two
applications of `swapParentsAndChildren` restore the store. -/
theorem roundtrip_a_root {d : Dom} {a ia b ib q2 : Nat} {α2 β2 : List Nat}
    (hwf : d.WF)
    (hab : a ≠ b) (hiaib : ia ≠ ib)
    (hq2ia : q2 ≠ ia) (hq2ib : q2 ≠ ib)
    (hian : ia ∈ d.nodes) (hibn : ib ∈ d.nodes)
    (hpa : d.parent a = none) (hpb : d.parent b = some q2)
    (hkq2 : d.kids q2 = α2 ++ b :: β2) :
    (d.swapParentsAndChildren a ia b ib).swapParentsAndChildren a ia b ib
      = d := by
  obtain ⟨hnodup, huniq, hchild⟩ := hwf
  obtain ⟨hq2n, hbkq2⟩ := parent_spec hpb
  have hq2nd := hnodup q2 hq2n
  have hCand := hnodup ia hian
  have hCbnd := hnodup ib hibn
  have hCap : ∀ c ∈ d.kids ia, ∀ m ∈ d.nodes, c ∈ d.kids m → m = ia :=
    fun c hc m hm hcm => huniq m hm ia hian c hcm hc
  have hCbp : ∀ c ∈ d.kids ib, ∀ m ∈ d.nodes, c ∈ d.kids m → m = ib :=
    fun c hc m hm hcm => huniq m hm ib hibn c hcm hc
  have hnonea := parent_none_spec hpa
  have haq2 : a ∉ d.kids q2 := hnonea q2 hq2n
  obtain ⟨hbα2, hbβ2, hβα2⟩ := nodup_split_facts (hkq2 ▸ hq2nd)
  have haα2 : a ∉ α2 := fun h => haq2 (by
    rw [hkq2]; exact List.mem_append_left _ h)
  have haβ2 : a ∉ β2 := fun h => haq2 (by
    rw [hkq2]; exact List.mem_append_right _ (List.mem_cons_of_mem _ h))
  rw [spac_a_root hab hiaib hq2ia hq2ib hian hibn hpa hpb hkq2 hq2nd haq2
    hCand hCbnd hCap hCbp]
  set D1 := updateKids (updateKids (updateKids d ia (d.kids ib)) ib
    (d.kids ia)) q2 (α2 ++ a :: β2) with hD1
  have hD1nodes : D1.nodes = d.nodes := by simp [hD1]
  have hD1ia : D1.kids ia = d.kids ib := by
    simp [hD1, Ne.symm hq2ia, hiaib, Ne.symm hiaib]
  have hD1ib : D1.kids ib = d.kids ia := by
    simp [hD1, Ne.symm hq2ib, hiaib, Ne.symm hiaib]
  have hD1q2 : D1.kids q2 = α2 ++ a :: β2 := by simp [hD1]
  have hD1other : ∀ m, m ≠ ia → m ≠ ib → m ≠ q2 → D1.kids m = d.kids m := by
    intro m h1 h2 h3
    simp [hD1, h1, h2, h3]
  have hian' : ia ∈ D1.nodes := by rwa [hD1nodes]
  have hibn' : ib ∈ D1.nodes := by rwa [hD1nodes]
  have hpa' : D1.parent a = some q2 := by
    apply parent_eq_some (by rwa [hD1nodes])
      (by rw [hD1q2]; exact List.mem_append_right _ (List.mem_cons_self a β2))
    intro m hm hcm
    rw [hD1nodes] at hm
    by_cases h1 : m = q2
    · exact h1
    · by_cases h3 : m = ia
      · rw [h3, hD1ia] at hcm
        exact absurd hcm (hnonea ib hibn)
      · by_cases h4 : m = ib
        · rw [h4, hD1ib] at hcm
          exact absurd hcm (hnonea ia hian)
        · rw [hD1other m h3 h4 h1] at hcm
          exact absurd hcm (hnonea m hm)
  have hpb' : D1.parent b = none := by
    apply parent_eq_none
    intro m hm
    rw [hD1nodes] at hm
    by_cases h1 : m = q2
    · rw [h1, hD1q2]
      intro h
      rcases List.mem_append.1 h with h | h
      · exact hbα2 h
      · rcases List.mem_cons.1 h with h | h
        · exact hab h.symm
        · exact hbβ2 h
    · by_cases h3 : m = ia
      · rw [h3, hD1ia]
        exact fun h => hq2ib (huniq ib hibn q2 hq2n b h hbkq2).symm
      · by_cases h4 : m = ib
        · rw [h4, hD1ib]
          exact fun h => hq2ia (huniq ia hian q2 hq2n b h hbkq2).symm
        · rw [hD1other m h3 h4 h1]
          exact fun h => h1 (huniq m hm q2 hq2n b h hbkq2)
  have hq2nd' : (D1.kids q2).Nodup := by
    rw [hD1q2]; exact nodup_replace (hkq2 ▸ hq2nd) haα2 haβ2
  have hCand' : (D1.kids ia).Nodup := by rw [hD1ia]; exact hCbnd
  have hCbnd' : (D1.kids ib).Nodup := by rw [hD1ib]; exact hCand
  have hCap' : ∀ c ∈ D1.kids ia, ∀ m ∈ D1.nodes, c ∈ D1.kids m → m = ia := by
    intro c hc m hm hcm
    rw [hD1ia] at hc
    rw [hD1nodes] at hm
    by_cases h3 : m = ia
    · exact h3
    · by_cases h4 : m = ib
      · rw [h4, hD1ib] at hcm
        exact absurd (huniq ia hian ib hibn c hcm hc) hiaib
      · by_cases h1 : m = q2
        · rw [h1, hD1q2] at hcm
          rcases List.mem_append.1 hcm with h | h
          · exact absurd (huniq ib hibn q2 hq2n c hc
              (by rw [hkq2]; exact List.mem_append_left _ h)).symm hq2ib
          · rcases List.mem_cons.1 h with h | h
            · exact absurd (h ▸ hc) (hnonea ib hibn)
            · exact absurd (huniq ib hibn q2 hq2n c hc
                (by rw [hkq2]
                    exact List.mem_append_right _
                      (List.mem_cons_of_mem _ h))).symm hq2ib
        · rw [hD1other m h3 h4 h1] at hcm
          exact absurd (huniq m hm ib hibn c hcm hc) h4
  have hCbp' : ∀ c ∈ D1.kids ib, ∀ m ∈ D1.nodes, c ∈ D1.kids m → m = ib := by
    intro c hc m hm hcm
    rw [hD1ib] at hc
    rw [hD1nodes] at hm
    by_cases h4 : m = ib
    · exact h4
    · by_cases h3 : m = ia
      · rw [h3, hD1ia] at hcm
        exact absurd (huniq ia hian ib hibn c hc hcm) hiaib
      · by_cases h1 : m = q2
        · rw [h1, hD1q2] at hcm
          rcases List.mem_append.1 hcm with h | h
          · exact absurd (huniq ia hian q2 hq2n c hc
              (by rw [hkq2]; exact List.mem_append_left _ h)).symm hq2ia
          · rcases List.mem_cons.1 h with h | h
            · exact absurd (h ▸ hc) (hnonea ia hian)
            · exact absurd (huniq ia hian q2 hq2n c hc
                (by rw [hkq2]
                    exact List.mem_append_right _
                      (List.mem_cons_of_mem _ h))).symm hq2ia
        · rw [hD1other m h3 h4 h1] at hcm
          exact absurd (huniq m hm ia hian c hcm hc) h3
  rw [spac_b_root hab hiaib hq2ia hq2ib hian' hibn' hpa' hpb' hD1q2 hq2nd'
    hCand' hCbnd' hCap' hCbp']
  refine Dom.ext' (by simp [hD1]) fun m => ?_
  simp only [updateKids_kids]
  by_cases hmq2 : m = q2
  · rw [if_pos hmq2, hmq2, hkq2]
  · rw [if_neg hmq2]
    by_cases hmib : m = ib
    · rw [if_pos hmib, hD1ia, hmib]
    · rw [if_neg hmib]
      by_cases hmia : m = ia
      · rw [if_pos hmia, hD1ib, hmia]
      · rw [if_neg hmia]
        exact hD1other m hmia hmib hmq2

/-- Double swap, first outer node parented and second parentless: two
applications of `swapParentsAndChildren` restore the store. -/
theorem roundtrip_b_root {d : Dom} {a ia b ib q1 : Nat} {α1 β1 : List Nat}
    (hwf : d.WF)
    (hab : a ≠ b) (hiaib : ia ≠ ib)
    (hq1ia : q1 ≠ ia) (hq1ib : q1 ≠ ib)
    (hian : ia ∈ d.nodes) (hibn : ib ∈ d.nodes)
    (hpa : d.parent a = some q1) (hpb : d.parent b = none)
    (hkq1 : d.kids q1 = α1 ++ a :: β1) :
    (d.swapParentsAndChildren a ia b ib).swapParentsAndChildren a ia b ib
      = d := by
  obtain ⟨hnodup, huniq, hchild⟩ := hwf
  obtain ⟨hq1n, hakq1⟩ := parent_spec hpa
  have hq1nd := hnodup q1 hq1n
  have hCand := hnodup ia hian
  have hCbnd := hnodup ib hibn
  have hCap : ∀ c ∈ d.kids ia, ∀ m ∈ d.nodes, c ∈ d.kids m → m = ia :=
    fun c hc m hm hcm => huniq m hm ia hian c hcm hc
  have hCbp : ∀ c ∈ d.kids ib, ∀ m ∈ d.nodes, c ∈ d.kids m → m = ib :=
    fun c hc m hm hcm => huniq m hm ib hibn c hcm hc
  have hnoneb := parent_none_spec hpb
  have hbq1 : b ∉ d.kids q1 := hnoneb q1 hq1n
  obtain ⟨haα1, haβ1, hβα1⟩ := nodup_split_facts (hkq1 ▸ hq1nd)
  have hbα1 : b ∉ α1 := fun h => hbq1 (by
    rw [hkq1]; exact List.mem_append_left _ h)
  have hbβ1 : b ∉ β1 := fun h => hbq1 (by
    rw [hkq1]; exact List.mem_append_right _ (List.mem_cons_of_mem _ h))
  rw [spac_b_root hab hiaib hq1ia hq1ib hian hibn hpa hpb hkq1 hq1nd
    hCand hCbnd hCap hCbp]
  set D1 := updateKids (updateKids (updateKids d ia (d.kids ib)) ib
    (d.kids ia)) q1 (α1 ++ b :: β1) with hD1
  have hD1nodes : D1.nodes = d.nodes := by simp [hD1]
  have hD1ia : D1.kids ia = d.kids ib := by
    simp [hD1, Ne.symm hq1ia, hiaib, Ne.symm hiaib]
  have hD1ib : D1.kids ib = d.kids ia := by
    simp [hD1, Ne.symm hq1ib, hiaib, Ne.symm hiaib]
  have hD1q1 : D1.kids q1 = α1 ++ b :: β1 := by simp [hD1]
  have hD1other : ∀ m, m ≠ ia → m ≠ ib → m ≠ q1 → D1.kids m = d.kids m := by
    intro m h1 h2 h3
    simp [hD1, h1, h2, h3]
  have hian' : ia ∈ D1.nodes := by rwa [hD1nodes]
  have hibn' : ib ∈ D1.nodes := by rwa [hD1nodes]
  have hpa' : D1.parent a = none := by
    apply parent_eq_none
    intro m hm
    rw [hD1nodes] at hm
    by_cases h1 : m = q1
    · rw [h1, hD1q1]
      intro h
      rcases List.mem_append.1 h with h | h
      · exact haα1 h
      · rcases List.mem_cons.1 h with h | h
        · exact hab h
        · exact haβ1 h
    · by_cases h3 : m = ia
      · rw [h3, hD1ia]
        exact fun h => hq1ib (huniq ib hibn q1 hq1n a h hakq1).symm
      · by_cases h4 : m = ib
        · rw [h4, hD1ib]
          exact fun h => hq1ia (huniq ia hian q1 hq1n a h hakq1).symm
        · rw [hD1other m h3 h4 h1]
          exact fun h => h1 (huniq m hm q1 hq1n a h hakq1)
  have hpb' : D1.parent b = some q1 := by
    apply parent_eq_some (by rwa [hD1nodes])
      (by rw [hD1q1]; exact List.mem_append_right _ (List.mem_cons_self b β1))
    intro m hm hcm
    rw [hD1nodes] at hm
    by_cases h1 : m = q1
    · exact h1
    · by_cases h3 : m = ia
      · rw [h3, hD1ia] at hcm
        exact absurd hcm (hnoneb ib hibn)
      · by_cases h4 : m = ib
        · rw [h4, hD1ib] at hcm
          exact absurd hcm (hnoneb ia hian)
        · rw [hD1other m h3 h4 h1] at hcm
          exact absurd hcm (hnoneb m hm)
  have hq1nd' : (D1.kids q1).Nodup := by
    rw [hD1q1]; exact nodup_replace (hkq1 ▸ hq1nd) hbα1 hbβ1
  have haq1' : a ∉ D1.kids q1 := by
    rw [hD1q1]
    intro h
    rcases List.mem_append.1 h with h | h
    · exact haα1 h
    · rcases List.mem_cons.1 h with h | h
      · exact hab h
      · exact haβ1 h
  have hCand' : (D1.kids ia).Nodup := by rw [hD1ia]; exact hCbnd
  have hCbnd' : (D1.kids ib).Nodup := by rw [hD1ib]; exact hCand
  have hCap' : ∀ c ∈ D1.kids ia, ∀ m ∈ D1.nodes, c ∈ D1.kids m → m = ia := by
    intro c hc m hm hcm
    rw [hD1ia] at hc
    rw [hD1nodes] at hm
    by_cases h3 : m = ia
    · exact h3
    · by_cases h4 : m = ib
      · rw [h4, hD1ib] at hcm
        exact absurd (huniq ia hian ib hibn c hcm hc) hiaib
      · by_cases h1 : m = q1
        · rw [h1, hD1q1] at hcm
          rcases List.mem_append.1 hcm with h | h
          · exact absurd (huniq ib hibn q1 hq1n c hc
              (by rw [hkq1]; exact List.mem_append_left _ h)).symm hq1ib
          · rcases List.mem_cons.1 h with h | h
            · exact absurd (h ▸ hc) (hnoneb ib hibn)
            · exact absurd (huniq ib hibn q1 hq1n c hc
                (by rw [hkq1]
                    exact List.mem_append_right _
                      (List.mem_cons_of_mem _ h))).symm hq1ib
        · rw [hD1other m h3 h4 h1] at hcm
          exact absurd (huniq m hm ib hibn c hcm hc) h4
  have hCbp' : ∀ c ∈ D1.kids ib, ∀ m ∈ D1.nodes, c ∈ D1.kids m → m = ib := by
    intro c hc m hm hcm
    rw [hD1ib] at hc
    rw [hD1nodes] at hm
    by_cases h4 : m = ib
    · exact h4
    · by_cases h3 : m = ia
      · rw [h3, hD1ia] at hcm
        exact absurd (huniq ia hian ib hibn c hc hcm) hiaib
      · by_cases h1 : m = q1
        · rw [h1, hD1q1] at hcm
          rcases List.mem_append.1 hcm with h | h
          · exact absurd (huniq ia hian q1 hq1n c hc
              (by rw [hkq1]; exact List.mem_append_left _ h)).symm hq1ia
          · rcases List.mem_cons.1 h with h | h
            · exact absurd (h ▸ hc) (hnoneb ia hian)
            · exact absurd (huniq ia hian q1 hq1n c hc
                (by rw [hkq1]
                    exact List.mem_append_right _
                      (List.mem_cons_of_mem _ h))).symm hq1ia
        · rw [hD1other m h3 h4 h1] at hcm
          exact absurd (huniq m hm ia hian c hcm hc) h3
  rw [spac_a_root hab hiaib hq1ia hq1ib hian' hibn' hpa' hpb' hD1q1 hq1nd'
    haq1' hCand' hCbnd' hCap' hCbp']
  refine Dom.ext' (by simp [hD1]) fun m => ?_
  simp only [updateKids_kids]
  by_cases hmq1 : m = q1
  · rw [if_pos hmq1, hmq1, hkq1]
  · rw [if_neg hmq1]
    by_cases hmib : m = ib
    · rw [if_pos hmib, hD1ia, hmib]
    · rw [if_neg hmib]
      by_cases hmia : m = ia
      · rw [if_pos hmia, hD1ib, hmia]
      · rw [if_neg hmia]
        exact hD1other m hmia hmib hmq1

/-- Double swap, same parent, first outer node before the second with at
least one sibling between them: two applications of
`swapParentsAndChildren` restore the store. -/
theorem roundtrip_same_a_first {d : Dom} {a ia b ib q t : Nat}
    {α' β γ : List Nat}
    (hwf : d.WF)
    (hab : a ≠ b) (hiaib : ia ≠ ib)
    (hqia : q ≠ ia) (hqib : q ≠ ib)
    (hian : ia ∈ d.nodes) (hibn : ib ∈ d.nodes)
    (hpa : d.parent a = some q) (hpb : d.parent b = some q)
    (hkq : d.kids q = α' ++ a :: t :: β ++ b :: γ) :
    (d.swapParentsAndChildren a ia b ib).swapParentsAndChildren a ia b ib
      = d := by
  obtain ⟨hnodup, huniq, hchild⟩ := hwf
  obtain ⟨hqn, hakq⟩ := parent_spec hpa
  have hbkq : b ∈ d.kids q := (parent_spec hpb).2
  have hqnd := hnodup q hqn
  have hCand := hnodup ia hian
  have hCbnd := hnodup ib hibn
  have hCap : ∀ c ∈ d.kids ia, ∀ m ∈ d.nodes, c ∈ d.kids m → m = ia :=
    fun c hc m hm hcm => huniq m hm ia hian c hcm hc
  have hCbp : ∀ c ∈ d.kids ib, ∀ m ∈ d.nodes, c ∈ d.kids m → m = ib :=
    fun c hc m hm hcm => huniq m hm ib hibn c hcm hc
  rw [spac_same_a_first hab hiaib hqia hqib hian hibn hpa hpb hkq hqnd
    hCand hCbnd hCap hCbp]
  set D1 := updateKids (updateKids (updateKids d ia (d.kids ib)) ib
    (d.kids ia)) q (α' ++ b :: t :: β ++ a :: γ) with hD1
  have hperm : List.Perm (α' ++ a :: t :: β ++ b :: γ)
      (α' ++ b :: t :: β ++ a :: γ) := perm_exchange
  have hD1nodes : D1.nodes = d.nodes := by simp [hD1]
  have hD1ia : D1.kids ia = d.kids ib := by
    simp [hD1, Ne.symm hqia, hiaib, Ne.symm hiaib]
  have hD1ib : D1.kids ib = d.kids ia := by
    simp [hD1, Ne.symm hqib, hiaib, Ne.symm hiaib]
  have hD1q : D1.kids q = α' ++ b :: t :: β ++ a :: γ := by simp [hD1]
  have hD1other : ∀ m, m ≠ ia → m ≠ ib → m ≠ q → D1.kids m = d.kids m := by
    intro m h1 h2 h3
    simp [hD1, h1, h2, h3]
  have hmemq : ∀ x ∈ α' ++ b :: t :: β ++ a :: γ, x ∈ d.kids q := by
    intro x hx
    rw [hkq]
    exact hperm.mem_iff.2 hx
  have haCa : a ∉ d.kids ia := fun h => hqia (huniq q hqn ia hian a hakq h)
  have haCb : a ∉ d.kids ib := fun h => hqib (huniq q hqn ib hibn a hakq h)
  have hbCa : b ∉ d.kids ia := fun h => hqia (huniq q hqn ia hian b hbkq h)
  have hbCb : b ∉ d.kids ib := fun h => hqib (huniq q hqn ib hibn b hbkq h)
  have hian' : ia ∈ D1.nodes := by rwa [hD1nodes]
  have hibn' : ib ∈ D1.nodes := by rwa [hD1nodes]
  have hpa' : D1.parent a = some q := by
    apply parent_eq_some (by rwa [hD1nodes])
      (by rw [hD1q]; exact List.mem_append_right _ (List.mem_cons_self a γ))
    intro m hm hcm
    rw [hD1nodes] at hm
    by_cases h1 : m = q
    · exact h1
    · by_cases h3 : m = ia
      · rw [h3, hD1ia] at hcm
        exact absurd hcm haCb
      · by_cases h4 : m = ib
        · rw [h4, hD1ib] at hcm
          exact absurd hcm haCa
        · rw [hD1other m h3 h4 h1] at hcm
          exact huniq m hm q hqn a hcm hakq
  have hpb' : D1.parent b = some q := by
    apply parent_eq_some (by rwa [hD1nodes])
      (by rw [hD1q]
          exact List.mem_append_left _
            (List.mem_append_right _ (List.mem_cons_self b (t :: β))))
    intro m hm hcm
    rw [hD1nodes] at hm
    by_cases h1 : m = q
    · exact h1
    · by_cases h3 : m = ia
      · rw [h3, hD1ia] at hcm
        exact absurd hcm hbCb
      · by_cases h4 : m = ib
        · rw [h4, hD1ib] at hcm
          exact absurd hcm hbCa
        · rw [hD1other m h3 h4 h1] at hcm
          exact huniq m hm q hqn b hcm hbkq
  have hqnd' : (D1.kids q).Nodup := by
    rw [hD1q]
    exact nodup_exchange (hkq ▸ hqnd)
  have hCand' : (D1.kids ia).Nodup := by rw [hD1ia]; exact hCbnd
  have hCbnd' : (D1.kids ib).Nodup := by rw [hD1ib]; exact hCand
  have hCap' : ∀ c ∈ D1.kids ia, ∀ m ∈ D1.nodes, c ∈ D1.kids m → m = ia := by
    intro c hc m hm hcm
    rw [hD1ia] at hc
    rw [hD1nodes] at hm
    by_cases h3 : m = ia
    · exact h3
    · by_cases h4 : m = ib
      · rw [h4, hD1ib] at hcm
        exact absurd (huniq ia hian ib hibn c hcm hc) hiaib
      · by_cases h1 : m = q
        · rw [h1, hD1q] at hcm
          exact absurd (huniq q hqn ib hibn c (hmemq c hcm) hc) hqib
        · rw [hD1other m h3 h4 h1] at hcm
          exact absurd (huniq m hm ib hibn c hcm hc) h4
  have hCbp' : ∀ c ∈ D1.kids ib, ∀ m ∈ D1.nodes, c ∈ D1.kids m → m = ib := by
    intro c hc m hm hcm
    rw [hD1ib] at hc
    rw [hD1nodes] at hm
    by_cases h4 : m = ib
    · exact h4
    · by_cases h3 : m = ia
      · rw [h3, hD1ia] at hcm
        exact absurd (huniq ia hian ib hibn c hc hcm) hiaib
      · by_cases h1 : m = q
        · rw [h1, hD1q] at hcm
          exact absurd (huniq q hqn ia hian c (hmemq c hcm) hc) hqia
        · rw [hD1other m h3 h4 h1] at hcm
          exact absurd (huniq m hm ia hian c hcm hc) h3
  rw [spac_same_b_first hab hiaib hqia hqib hian' hibn' hpa' hpb' hD1q
    hqnd' hCand' hCbnd' hCap' hCbp']
  refine Dom.ext' (by simp [hD1]) fun m => ?_
  simp only [updateKids_kids]
  by_cases hmq : m = q
  · rw [if_pos hmq, hmq, hkq]
  · rw [if_neg hmq]
    by_cases hmib : m = ib
    · rw [if_pos hmib, hD1ia, hmib]
    · rw [if_neg hmib]
      by_cases hmia : m = ia
      · rw [if_pos hmia, hD1ib, hmia]
      · rw [if_neg hmia]
        exact hD1other m hmia hmib hmq

/-- Double swap, same parent, second outer node before the first with at
least one sibling between them: two applications of
`swapParentsAndChildren` restore the store. -/
theorem roundtrip_same_b_first {d : Dom} {a ia b ib q t : Nat}
    {α' β γ : List Nat}
    (hwf : d.WF)
    (hab : a ≠ b) (hiaib : ia ≠ ib)
    (hqia : q ≠ ia) (hqib : q ≠ ib)
    (hian : ia ∈ d.nodes) (hibn : ib ∈ d.nodes)
    (hpa : d.parent a = some q) (hpb : d.parent b = some q)
    (hkq : d.kids q = α' ++ b :: t :: β ++ a :: γ) :
    (d.swapParentsAndChildren a ia b ib).swapParentsAndChildren a ia b ib
      = d := by
  obtain ⟨hnodup, huniq, hchild⟩ := hwf
  obtain ⟨hqn, hakq⟩ := parent_spec hpa
  have hbkq : b ∈ d.kids q := (parent_spec hpb).2
  have hqnd := hnodup q hqn
  have hCand := hnodup ia hian
  have hCbnd := hnodup ib hibn
  have hCap : ∀ c ∈ d.kids ia, ∀ m ∈ d.nodes, c ∈ d.kids m → m = ia :=
    fun c hc m hm hcm => huniq m hm ia hian c hcm hc
  have hCbp : ∀ c ∈ d.kids ib, ∀ m ∈ d.nodes, c ∈ d.kids m → m = ib :=
    fun c hc m hm hcm => huniq m hm ib hibn c hcm hc
  rw [spac_same_b_first hab hiaib hqia hqib hian hibn hpa hpb hkq hqnd
    hCand hCbnd hCap hCbp]
  set D1 := updateKids (updateKids (updateKids d ia (d.kids ib)) ib
    (d.kids ia)) q (α' ++ a :: t :: β ++ b :: γ) with hD1
  have hperm : List.Perm (α' ++ b :: t :: β ++ a :: γ)
      (α' ++ a :: t :: β ++ b :: γ) := perm_exchange
  have hD1nodes : D1.nodes = d.nodes := by simp [hD1]
  have hD1ia : D1.kids ia = d.kids ib := by
    simp [hD1, Ne.symm hqia, hiaib, Ne.symm hiaib]
  have hD1ib : D1.kids ib = d.kids ia := by
    simp [hD1, Ne.symm hqib, hiaib, Ne.symm hiaib]
  have hD1q : D1.kids q = α' ++ a :: t :: β ++ b :: γ := by simp [hD1]
  have hD1other : ∀ m, m ≠ ia → m ≠ ib → m ≠ q → D1.kids m = d.kids m := by
    intro m h1 h2 h3
    simp [hD1, h1, h2, h3]
  have hmemq : ∀ x ∈ α' ++ a :: t :: β ++ b :: γ, x ∈ d.kids q := by
    intro x hx
    rw [hkq]
    exact hperm.mem_iff.2 hx
  have haCa : a ∉ d.kids ia := fun h => hqia (huniq q hqn ia hian a hakq h)
  have haCb : a ∉ d.kids ib := fun h => hqib (huniq q hqn ib hibn a hakq h)
  have hbCa : b ∉ d.kids ia := fun h => hqia (huniq q hqn ia hian b hbkq h)
  have hbCb : b ∉ d.kids ib := fun h => hqib (huniq q hqn ib hibn b hbkq h)
  have hian' : ia ∈ D1.nodes := by rwa [hD1nodes]
  have hibn' : ib ∈ D1.nodes := by rwa [hD1nodes]
  have hpa' : D1.parent a = some q := by
    apply parent_eq_some (by rwa [hD1nodes])
      (by rw [hD1q]
          exact List.mem_append_left _
            (List.mem_append_right _ (List.mem_cons_self a (t :: β))))
    intro m hm hcm
    rw [hD1nodes] at hm
    by_cases h1 : m = q
    · exact h1
    · by_cases h3 : m = ia
      · rw [h3, hD1ia] at hcm
        exact absurd hcm haCb
      · by_cases h4 : m = ib
        · rw [h4, hD1ib] at hcm
          exact absurd hcm haCa
        · rw [hD1other m h3 h4 h1] at hcm
          exact huniq m hm q hqn a hcm hakq
  have hpb' : D1.parent b = some q := by
    apply parent_eq_some (by rwa [hD1nodes])
      (by rw [hD1q]; exact List.mem_append_right _ (List.mem_cons_self b γ))
    intro m hm hcm
    rw [hD1nodes] at hm
    by_cases h1 : m = q
    · exact h1
    · by_cases h3 : m = ia
      · rw [h3, hD1ia] at hcm
        exact absurd hcm hbCb
      · by_cases h4 : m = ib
        · rw [h4, hD1ib] at hcm
          exact absurd hcm hbCa
        · rw [hD1other m h3 h4 h1] at hcm
          exact huniq m hm q hqn b hcm hbkq
  have hqnd' : (D1.kids q).Nodup := by
    rw [hD1q]
    exact nodup_exchange (hkq ▸ hqnd)
  have hCand' : (D1.kids ia).Nodup := by rw [hD1ia]; exact hCbnd
  have hCbnd' : (D1.kids ib).Nodup := by rw [hD1ib]; exact hCand
  have hCap' : ∀ c ∈ D1.kids ia, ∀ m ∈ D1.nodes, c ∈ D1.kids m → m = ia := by
    intro c hc m hm hcm
    rw [hD1ia] at hc
    rw [hD1nodes] at hm
    by_cases h3 : m = ia
    · exact h3
    · by_cases h4 : m = ib
      · rw [h4, hD1ib] at hcm
        exact absurd (huniq ia hian ib hibn c hcm hc) hiaib
      · by_cases h1 : m = q
        · rw [h1, hD1q] at hcm
          exact absurd (huniq q hqn ib hibn c (hmemq c hcm) hc) hqib
        · rw [hD1other m h3 h4 h1] at hcm
          exact absurd (huniq m hm ib hibn c hcm hc) h4
  have hCbp' : ∀ c ∈ D1.kids ib, ∀ m ∈ D1.nodes, c ∈ D1.kids m → m = ib := by
    intro c hc m hm hcm
    rw [hD1ib] at hc
    rw [hD1nodes] at hm
    by_cases h4 : m = ib
    · exact h4
    · by_cases h3 : m = ia
      · rw [h3, hD1ia] at hcm
        exact absurd (huniq ia hian ib hibn c hc hcm) hiaib
      · by_cases h1 : m = q
        · rw [h1, hD1q] at hcm
          exact absurd (huniq q hqn ia hian c (hmemq c hcm) hc) hqia
        · rw [hD1other m h3 h4 h1] at hcm
          exact absurd (huniq m hm ia hian c hcm hc) h3
  rw [spac_same_a_first hab hiaib hqia hqib hian' hibn' hpa' hpb' hD1q
    hqnd' hCand' hCbnd' hCap' hCbp']
  refine Dom.ext' (by simp [hD1]) fun m => ?_
  simp only [updateKids_kids]
  by_cases hmq : m = q
  · rw [if_pos hmq, hmq, hkq]
  · rw [if_neg hmq]
    by_cases hmib : m = ib
    · rw [if_pos hmib, hD1ia, hmib]
    · rw [if_neg hmib]
      by_cases hmia : m = ia
      · rw [if_pos hmia, hD1ib, hmia]
      · rw [if_neg hmia]
        exact hD1other m hmia hmib hmq

/-- Every node of a valid chain lies in any set that contains the head and
is closed under taking children. -/
theorem chain_subset {d : Dom} {S : List Nat}
    (hSc : ∀ u ∈ S, ∀ c ∈ d.kids u, c ∈ S) :
    ∀ {a : Nat} {xs : List Nat}, a ∈ S → ChainValid d (a :: xs) →
      ∀ u ∈ a :: xs, u ∈ S := by
  intro a xs
  induction xs generalizing a with
  | nil =>
    intro haS _ u hu
    rcases List.mem_cons.1 hu with h | h
    · rw [h]; exact haS
    · cases h
  | cons b t ih =>
    intro haS hv u hu
    obtain ⟨hab, hrest⟩ := hv
    have hbS : b ∈ S :=
      hSc a haS b (by rw [hab]; exact List.mem_cons_self b [])
    rcases List.mem_cons.1 hu with h | h
    · rw [h]; exact haS
    · exact ih hbS hrest u h

/-- Every node of a valid chain with an existing head exists in the store,
by the well-formedness condition on children. -/
theorem chain_mem_nodes {d : Dom}
    (hchild : ∀ m ∈ d.nodes, ∀ c ∈ d.kids m, c ∈ d.nodes ∧ c ≠ m) :
    ∀ {a : Nat} {xs : List Nat}, a ∈ d.nodes → ChainValid d (a :: xs) →
      ∀ u ∈ a :: xs, u ∈ d.nodes := by
  intro a xs
  induction xs generalizing a with
  | nil =>
    intro han _ u hu
    rcases List.mem_cons.1 hu with h | h
    · rw [h]; exact han
    · cases h
  | cons b t ih =>
    intro han hv u hu
    obtain ⟨hab, hrest⟩ := hv
    have hbn : b ∈ d.nodes :=
      (hchild a han b (by rw [hab]; exact List.mem_cons_self b [])).1
    rcases List.mem_cons.1 hu with h | h
    · rw [h]; exact han
    · exact ih hbn hrest u h

/-- C2 (amended): swapping two disjoint, structurally valid wrap chains
and then swapping them again restores the original tree shape and the
original child list of every node, provided the first chain's outer node
is not the sibling immediately preceding the second chain's outer node.
Disjointness is expressed by two disjoint child-closed supersets `Sx` and
`Sy` of the chains whose members also exclude both outer nodes' parents.
(Without the extra sibling proviso the claim fails; see the
counterexample.) -/
theorem claim_C2_swap_self_inverse {d : Dom} {a b : Nat}
    {xs ys Sx Sy : List Nat}
    (hwf : d.WF)
    (han : a ∈ d.nodes) (hbn : b ∈ d.nodes)
    (hvx : ChainValid d (a :: xs)) (hvy : ChainValid d (b :: ys))
    (haSx : a ∈ Sx) (hbSy : b ∈ Sy)
    (hSxc : ∀ u ∈ Sx, ∀ c ∈ d.kids u, c ∈ Sx)
    (hSyc : ∀ u ∈ Sy, ∀ c ∈ d.kids u, c ∈ Sy)
    (hdisj : ∀ u ∈ Sx, u ∉ Sy)
    (hpaS : ∀ q, d.parent a = some q → q ∉ Sx ∧ q ∉ Sy)
    (hpbS : ∀ q, d.parent b = some q → q ∉ Sx ∧ q ∉ Sy)
    (hnsib : d.nextSibling a ≠ some b) :
    (d.swapWraps (a :: xs) (b :: ys)).swapWraps (a :: xs) (b :: ys) = d := by
  have hxne : (a :: xs) ≠ ([] : List Nat) := by simp
  have hyne : (b :: ys) ≠ ([] : List Nat) := by simp
  show (d.swapParentsAndChildren a ((a :: xs).getLast hxne) b
      ((b :: ys).getLast hyne)).swapParentsAndChildren a
      ((a :: xs).getLast hxne) b ((b :: ys).getLast hyne) = d
  set ia := (a :: xs).getLast hxne with hiadef
  set ib := (b :: ys).getLast hyne with hibdef
  have hiamem : ia ∈ a :: xs := by rw [hiadef]; exact List.getLast_mem hxne
  have hibmem : ib ∈ b :: ys := by rw [hibdef]; exact List.getLast_mem hyne
  have hiaSx : ia ∈ Sx := chain_subset hSxc haSx hvx ia hiamem
  have hibSy : ib ∈ Sy := chain_subset hSyc hbSy hvy ib hibmem
  have hiaib : ia ≠ ib := fun h => hdisj ia hiaSx (by rw [h]; exact hibSy)
  have hab : a ≠ b := fun h => hdisj a haSx (by rw [h]; exact hbSy)
  have hian : ia ∈ d.nodes := chain_mem_nodes hwf.2.2 han hvx ia hiamem
  have hibn : ib ∈ d.nodes := chain_mem_nodes hwf.2.2 hbn hvy ib hibmem
  cases hpa : d.parent a with
  | none =>
    cases hpb : d.parent b with
    | none => exact roundtrip_both_roots hwf hiaib hian hibn hpa hpb
    | some q2 =>
      obtain ⟨hq2Sx, hq2Sy⟩ := hpbS q2 hpb
      have hq2ia : q2 ≠ ia := fun h => hq2Sx (by rw [h]; exact hiaSx)
      have hq2ib : q2 ≠ ib := fun h => hq2Sy (by rw [h]; exact hibSy)
      have hq2n := (parent_spec hpb).1
      have hbkq2 := (parent_spec hpb).2
      obtain ⟨α2, β2, hkq2, -, -⟩ := nodup_mem_split hbkq2 (hwf.1 q2 hq2n)
      exact roundtrip_a_root hwf hab hiaib hq2ia hq2ib hian hibn hpa hpb hkq2
  | some q1 =>
    obtain ⟨hq1Sx, hq1Sy⟩ := hpaS q1 hpa
    have hq1ia : q1 ≠ ia := fun h => hq1Sx (by rw [h]; exact hiaSx)
    have hq1ib : q1 ≠ ib := fun h => hq1Sy (by rw [h]; exact hibSy)
    have hq1n := (parent_spec hpa).1
    have hakq1 := (parent_spec hpa).2
    cases hpb : d.parent b with
    | none =>
      obtain ⟨α1, β1, hkq1, -, -⟩ := nodup_mem_split hakq1 (hwf.1 q1 hq1n)
      exact roundtrip_b_root hwf hab hiaib hq1ia hq1ib hian hibn hpa hpb hkq1
    | some q2 =>
      obtain ⟨hq2Sx, hq2Sy⟩ := hpbS q2 hpb
      have hq2ia : q2 ≠ ia := fun h => hq2Sx (by rw [h]; exact hiaSx)
      have hq2ib : q2 ≠ ib := fun h => hq2Sy (by rw [h]; exact hibSy)
      have hq2n := (parent_spec hpb).1
      have hbkq2 := (parent_spec hpb).2
      by_cases hq12 : q1 = q2
      · rw [← hq12] at hpb hbkq2
        rcases mem_mem_split hakq1 hbkq2 hab with
          ⟨s, t, u, hsp⟩ | ⟨s, t, u, hsp⟩
        · cases t with
          | nil =>
            exfalso
            apply hnsib
            rw [nextSibling_of_parent hpa]
            have hsp' : d.kids q1 = s ++ a :: b :: u := by rw [hsp]; simp
            obtain ⟨haS, -, -⟩ := nodup_split_facts (hsp' ▸ hwf.1 q1 hq1n)
            rw [hsp', nextAfter_eq_head? (b :: u) haS]
            rfl
          | cons t0 t1 =>
            exact roundtrip_same_a_first hwf hab hiaib hq1ia hq1ib hian hibn
              hpa hpb hsp
        · cases t with
          | nil =>
            have hsp' : d.kids q1 = s ++ b :: a :: u := by rw [hsp]; simp
            exact roundtrip_same_adjacent hwf hab hiaib hq1ia hq1ib hian hibn
              hpa hpb hsp'
          | cons t0 t1 =>
            exact roundtrip_same_b_first hwf hab hiaib hq1ia hq1ib hian hibn
              hpa hpb hsp
      · obtain ⟨α1, β1, hkq1, -, -⟩ := nodup_mem_split hakq1 (hwf.1 q1 hq1n)
        obtain ⟨α2, β2, hkq2, -, -⟩ := nodup_mem_split hbkq2 (hwf.1 q2 hq2n)
        exact roundtrip_diff hwf hab hiaib hq1ia hq1ib hq2ia hq2ib hq12 hian
          hibn hpa hpb hkq1 hkq2

/-- Two adjacent sibling wrappers under node 0, the first chain's outer
node immediately before the second's: the configuration on which the
unamended claim fails. -/
def c2Dom : Dom :=
  ⟨[0, 1, 2], fun n => if n = 0 then [1, 2] else []⟩

/-- C2 counterexample: in a well-formed store where node 0 has children
`[1, 2]`, the chains `[1]` and `[2]` are disjoint and structurally valid,
yet swapping them twice leaves node 0 with children `[2, 1]`: the double
swap is not the identity when the first chain's outer node is the sibling
immediately preceding the second chain's outer node. -/
theorem claim_C2_counterexample :
    c2Dom.WF ∧ ChainValid c2Dom [1] ∧ ChainValid c2Dom [2] ∧
    (∀ u ∈ ([1] : List Nat), u ∉ ([2] : List Nat)) ∧
    c2Dom.nextSibling 1 = some 2 ∧
    c2Dom.kids 0 = [1, 2] ∧
    ((c2Dom.swapWraps [1] [2]).swapWraps [1] [2]).kids 0 = [2, 1] ∧
    (c2Dom.swapWraps [1] [2]).swapWraps [1] [2] ≠ c2Dom := by
  refine ⟨by decide, trivial, trivial, by decide, by decide, rfl, ?_, ?_⟩
  · decide
  · intro h
    have h0 : ((c2Dom.swapWraps [1] [2]).swapWraps [1] [2]).kids 0 =
        c2Dom.kids 0 := by rw [h]
    rw [show ((c2Dom.swapWraps [1] [2]).swapWraps [1] [2]).kids 0 = [2, 1]
      from by decide] at h0
    exact absurd h0 (by decide)

/-- The same two wrappers with the safe sibling order: node 0 has children
`[2, 1]`, so chain `[1]`'s outer node is not immediately before chain
`[2]`'s. -/
def c2wDom : Dom :=
  ⟨[0, 1, 2], fun n => if n = 0 then [2, 1] else []⟩

/-- Witness for the amended C2 theorem: on the concrete safe store the
double swap of the chains `[1]` and `[2]` restores the store exactly. -/
theorem claim_C2_witness :
    (c2wDom.swapWraps [1] [2]).swapWraps [1] [2] = c2wDom :=
  @claim_C2_swap_self_inverse c2wDom 1 2 [] [] [1] [2] (by decide)
    (by decide) (by decide) trivial trivial (by decide) (by decide)
    (by decide) (by decide) (by decide)
    (fun q hq => by
      rw [show c2wDom.parent 1 = some 0 from by decide] at hq
      injection hq with h
      rw [← h]
      exact ⟨by decide, by decide⟩)
    (fun q hq => by
      rw [show c2wDom.parent 2 = some 0 from by decide] at hq
      injection hq with h
      rw [← h]
      exact ⟨by decide, by decide⟩)
    (by decide)
